import Mathlib

/-!
Verification of the outgroup-assignment engine of `src/progressive/outgroup.py`
(classes `GreedyOutgroup` and `DynamicOutgroup`) against its specification.

The code is shallowly embedded: the networkx digraph `self.dag` becomes a list
of edges, the distance dictionaries become association lists, and the mutable
state of `GreedyOutgroup.greedy` becomes an explicit state record threaded
through one step function per ordered candidate pair.  Python runtime errors
(`assert`, `TypeError`, `KeyError`-free paths) are modelled with `Except`.
Floating point numbers are modelled by `Flt`, exact fractions with integer
numerator and positive denominator, kept unreduced so that every arithmetic
operation is kernel-computable (core `Rat` normalisation is not); the engine
only ever adds, subtracts, multiplies, divides and compares these values, all
of which `Flt` performs exactly.  `math.exp` (transcendental, not exactly
representable) is abstracted as an explicit function parameter where it
occurs.  All definitions are executable so concrete runs can be decided.
-/

/-! ### Exact fraction arithmetic (the model of python floats) -/

/-- An exact fraction `num / den` with positive denominator, not necessarily
in lowest terms.  Python float *values* are modelled by the rational value of
such a fraction; comparisons and equality tests in the embedded code always
go through the value-level predicates `qlt`, `qle`, `qeq` below. -/
structure Flt where
  num : ℤ
  den : ℕ+
deriving DecidableEq

instance : Repr Flt := ⟨fun f n => reprPrec (f.num, (f.den : ℕ)) n⟩

instance : Inhabited Flt := ⟨⟨0, 1⟩⟩

instance (n : ℕ) : OfNat Flt n := ⟨⟨(n : ℤ), 1⟩⟩

/-- Exact addition. -/
def qadd (a b : Flt) : Flt :=
  ⟨a.num * ((b.den : ℕ) : ℤ) + b.num * ((a.den : ℕ) : ℤ), a.den * b.den⟩

/-- Exact subtraction. -/
def qsub (a b : Flt) : Flt :=
  ⟨a.num * ((b.den : ℕ) : ℤ) - b.num * ((a.den : ℕ) : ℤ), a.den * b.den⟩

/-- Exact multiplication. -/
def qmul (a b : Flt) : Flt := ⟨a.num * b.num, a.den * b.den⟩

/-- Exact negation. -/
def qneg (a : Flt) : Flt := ⟨-a.num, a.den⟩

/-- Exact division; division by zero (a python `ZeroDivisionError`, never
reached on the paths the claims exercise) yields the junk value 0. -/
def qdiv (a b : Flt) : Flt :=
  if h : 0 < b.num then ⟨a.num * ((b.den : ℕ) : ℤ), a.den * ⟨b.num.toNat, by omega⟩⟩
  else if h2 : b.num < 0 then
    ⟨-(a.num * ((b.den : ℕ) : ℤ)), a.den * ⟨(-b.num).toNat, by omega⟩⟩
  else 0

/-- Value-level strict order (cross multiplication; denominators are
positive). -/
def qlt (a b : Flt) : Prop := a.num * ((b.den : ℕ) : ℤ) < b.num * ((a.den : ℕ) : ℤ)

/-- Value-level order. -/
def qle (a b : Flt) : Prop := a.num * ((b.den : ℕ) : ℤ) ≤ b.num * ((a.den : ℕ) : ℤ)

/-- Value-level equality (python `==` on floats). -/
def qeq (a b : Flt) : Prop := a.num * ((b.den : ℕ) : ℤ) = b.num * ((a.den : ℕ) : ℤ)

instance (a b : Flt) : Decidable (qlt a b) := inferInstanceAs (Decidable (_ < _))

instance (a b : Flt) : Decidable (qle a b) := inferInstanceAs (Decidable (_ ≤ _))

instance (a b : Flt) : Decidable (qeq a b) := inferInstanceAs (Decidable (_ = _))

/-- python `max` on two float values (`a if a >= b else b`). -/
def qmax (a b : Flt) : Flt := if qlt a b then b else a

/-! ### Association-list helpers (python `dict` over hashable keys) -/

/-- First-match association lookup (python `d[k]` / `k in d`). -/
def alookup {β : Type} (k : ℕ) : List (ℕ × β) → Option β
  | [] => none
  | (a, b) :: rest => if a = k then some b else alookup k rest

/-- Update the binding of `k` in place, appending at the end when absent
(python `d[k] = v` keeps insertion order). -/
def aset {β : Type} : List (ℕ × β) → ℕ → β → List (ℕ × β)
  | [], k, v => [(k, v)]
  | (a, b) :: rest, k, v =>
    if a = k then (k, v) :: rest else (a, b) :: aset rest k v

/-- Last-match association lookup: `dict(pairs)[k]` in python keeps the last
occurrence of a duplicated key. -/
def alookupLast {β : Type} (k : ℕ) (l : List (ℕ × β)) : Option β :=
  alookup k l.reverse

/-- Add an element to a set represented as a duplicate-free list
(python `set.add`). -/
def insertNode (v : ℕ) (l : List ℕ) : List ℕ :=
  if v ∈ l then l else l ++ [v]

/-! ### Directed graphs as edge lists, reachability and the acyclicity check -/

/-- An unweighted directed edge, as stored in the working DAG once branch
lengths are no longer read (the greedy loop never reads edge weights). -/
abbrev Edge := ℕ × ℕ

/-- A weighted directed edge `(u, v, w)` of `mcTree.nxDg`: `u → v` with
branch length `w`. -/
abbrev WEdge := ℕ × ℕ × Flt

/-- Successors of all members of `S` (one expansion step of reachability). -/
def succsIn (E : List Edge) (S : List ℕ) : List ℕ :=
  (E.filter (fun e => e.1 ∈ S)).map (fun e => e.2)

/-- One step of the reachability closure, with duplicates removed. -/
def stepReach (E : List Edge) (S : List ℕ) : List ℕ :=
  (S ++ succsIn E S).dedup

/-- All nodes reachable from `v` (including `v`): the expansion step is
iterated more times than there are edges, which reaches the fixpoint. -/
def reachFrom (E : List Edge) (v : ℕ) : List ℕ :=
  (stepReach E)^[E.length + 1] [v]

/-- Embedding of `networkx.is_directed_acyclic_graph`: a directed graph is
acyclic iff no edge `(u, v)` has a path from `v` back to `u`. -/
def isAcyclicB (E : List Edge) : Bool :=
  !(E.any (fun e => decide (e.1 ∈ reachFrom E e.2)))

/-- The edge relation of an edge list. -/
def RelE (E : List Edge) (a b : ℕ) : Prop := (a, b) ∈ E

/-- Semantic acyclicity: no node lies on a nonempty directed cycle. -/
def NoCycle (E : List Edge) : Prop :=
  ∀ v, ¬ Relation.TransGen (RelE E) v v

/-! ### Shortest-path distance tables

`GreedyOutgroup.importTree` calls `all_pairs_dijkstra_path_length` on the
directed dag and on its undirected view.  We compute single-source shortest
path lengths by relaxation iterated enough times to stabilise, which computes
the same table as Dijkstra for the non-negatively weighted inputs the code
receives; a node appears in the table iff it is reachable from the source. -/

/-- Relax every weighted edge once against a tentative distance map. -/
def relaxOnce (adj : List WEdge) (d : List (ℕ × Flt)) : List (ℕ × Flt) :=
  adj.foldl
    (fun d e =>
      match alookup e.1 d with
      | none => d
      | some du =>
        match alookup e.2.1 d with
        | none => aset d e.2.1 (qadd du e.2.2)
        | some dv =>
          if qlt (qadd du e.2.2) dv then aset d e.2.1 (qadd du e.2.2) else d)
    d

/-- Single-source shortest path lengths from `s`, listed in the deterministic
node order `ns` (the iteration order we fix for the python dicts). -/
def distFrom (adj : List WEdge) (ns : List ℕ) (s : ℕ) : List (ℕ × Flt) :=
  let d := (relaxOnce adj)^[ns.length + 1] [(s, 0)]
  ns.filterMap (fun n => (alookup n d).map (fun q => (n, q)))

/-- All-pairs shortest path lengths: one row per node, in node order. -/
def distTable (adj : List WEdge) (ns : List ℕ) : List (ℕ × List (ℕ × Flt)) :=
  ns.map (fun s => (s, distFrom adj ns s))

/-! ### The tree view

`MultiCactusTree` is an external collaborator of this file (spec §2: "Tree
View (external; consumed)").  Modelled from the spec: node identity,
parent/children, leaf status, per-edge branch length, root identity,
breadth-first traversal, unique names, and the `subtreeRoots` flag set. -/

/-- Modelled from the spec: the read-only tree view consumed by the engine.
`edges` are the parent→child edges of `mcTree.nxDg` with branch lengths,
`names` the per-node unique name attribute (numbers standing for strings). -/
structure MCTree where
  nodes : List ℕ
  edges : List WEdge
  root : ℕ
  subtreeRoots : List ℕ
  names : List (ℕ × ℕ)
deriving Repr, DecidableEq, Inhabited

/-- Modelled from the spec: `mcTree.getName` (defaults to the id itself when
no name attribute is recorded; names are unique in a well-formed tree). -/
def getName (t : MCTree) (v : ℕ) : ℕ :=
  (alookup v t.names).getD v

/-- Modelled from the spec: ordered children of a node in the tree view. -/
def treeChildren (t : MCTree) (v : ℕ) : List ℕ :=
  (t.edges.filter (fun e => e.1 = v)).map (fun e => e.2.1)

/-- Modelled from the spec: `mcTree.isLeaf` (no children). -/
def isLeafT (t : MCTree) (v : ℕ) : Bool :=
  (treeChildren t v).isEmpty

/-- Modelled from the spec: `mcTree.getParent` (first recorded parent). -/
def parentOfT (t : MCTree) (v : ℕ) : Option ℕ :=
  (t.edges.find? (fun e => e.2.1 = v)).map (fun e => e.1)

/-- Breadth-first traversal worker: fuel, queue, visited-in-order. -/
def bfsAux (t : MCTree) : ℕ → List ℕ → List ℕ → List ℕ
  | 0, _, visited => visited
  | _ + 1, [], visited => visited
  | fuel + 1, q :: qs, visited =>
    if q ∈ visited then bfsAux t fuel qs visited
    else bfsAux t fuel (qs ++ treeChildren t q) (visited ++ [q])

/-- Modelled from the spec: `mcTree.breadthFirstTraversal(start)`. -/
def bfsTraversal (t : MCTree) (start : ℕ) : List ℕ :=
  bfsAux t (1 + t.nodes.length * (t.edges.length + 1)) [start] []

/-! ### `GreedyOutgroup.stripNonEvents` and `GreedyOutgroup.importTree` -/

/-- Out-edges of a node (networkx `G.out_edges(id)`). -/
def outEdgesW (E : List WEdge) (v : ℕ) : List WEdge :=
  E.filter (fun e => e.1 = v)

/-- In-edges of a node (networkx `G.in_edges(id)`). -/
def inEdgesW (E : List WEdge) (v : ℕ) : List WEdge :=
  E.filter (fun e => e.2.1 = v)

/-- networkx `G.remove_node(id)`: drop the node and all incident edges. -/
def removeNodeW (E : List WEdge) (v : ℕ) : List WEdge :=
  E.filter (fun e => ¬(e.1 = v ∨ e.2.1 = v))

/-- Embedding of `GreedyOutgroup.stripNonEvents` (source lines 52–66).
Line 60 reads `self.dag.in_edges[0][0]`, subscripting the bound method
`in_edges` itself, which raises `TypeError` whenever `parentCount == 1`;
consequently the splice-and-recurse branch (lines 61–66, kept below for
fidelity) can only be entered with `parentCount == 0`, where its own
`assert parentCount == 1` fails.  Spliced edges would carry no weight
attribute, which networkx treats as weight 1. -/
def stripNonEvents : ℕ → List WEdge → ℕ → List ℕ → Except String (List WEdge)
  | 0, _, _, _ => .error "recursion fuel exhausted"
  | fuel + 1, dag, id, roots =>
    let children := (outEdgesW dag id).map (fun e => e.2.1)
    let parentCount := (inEdgesW dag id).length
    if 1 < parentCount then .error "AssertionError: parentCount lessEq 1"
    else
      match (if parentCount = 1
             then Except.error "TypeError: in_edges method is not subscriptable"
             else Except.ok (none : Option ℕ) : Except String (Option ℕ)) with
      | .error e => .error e
      | .ok parent =>
        if id ∉ roots ∧ children ≠ [] then
          if ¬parentCount = 1 then .error "AssertionError: parentCount == 1"
          else
            match parent with
            | none => .error "unreachable: parent is None"
            | some par =>
              let dag2 := removeNodeW dag id
              let dag3 := children.foldl (fun d c => d ++ [(par, c, (1 : Flt))]) dag2
              children.foldlM (fun d c => stripNonEvents fuel d c roots) dag3
        else .ok dag

/-- The full greedy-side state produced by `GreedyOutgroup.importTree`:
the working dag, the two distance tables, the root, the outgroup map
(`name → list of (outgroupName, distance)`) and the tree view. -/
structure OGState where
  dag : List Edge
  dm : List (ℕ × List (ℕ × Flt))
  dmDirected : List (ℕ × List (ℕ × Flt))
  root : ℕ
  ogMap : List (ℕ × List (ℕ × Flt))
  tree : MCTree
deriving Repr, DecidableEq, Inhabited

/-- Embedding of `GreedyOutgroup.importTree` (source lines 39–49): copy the
tree's digraph, strip non-events, build the directed and undirected all-pairs
distance tables, and reset the outgroup map.  Edge weights are dropped from
the working dag afterwards because the greedy loop never reads them. -/
def importTreeG (t : MCTree) : Except String OGState :=
  match stripNonEvents (t.nodes.length + 1) t.edges t.root t.subtreeRoots with
  | .error e => .error e
  | .ok dag2 =>
    let ns := t.nodes.dedup
    let adjU := dag2 ++ dag2.map (fun e => (e.2.1, e.1, e.2.2))
    .ok { dag := (dag2.map (fun e => (e.1, e.2.1))).dedup
          dm := distTable adjU ns
          dmDirected := distTable dag2 ns
          root := t.root
          ogMap := []
          tree := t }

/-! ### `GreedyOutgroup.greedy` -/

/-- Children of a node in the unweighted working dag
(targets of `self.dag.out_edges(node)`). -/
def dagChildren (E : List Edge) (v : ℕ) : List ℕ :=
  (E.filter (fun e => e.1 = v)).map (fun e => e.2)

/-- networkx `add_edge` on a digraph: a repeated edge is not duplicated. -/
def addEdge (E : List Edge) (u v : ℕ) : List Edge :=
  if (u, v) ∈ E then E else E ++ [(u, v)]

/-- networkx `remove_edge`. -/
def eraseEdge (E : List Edge) (u v : ℕ) : List Edge :=
  E.erase (u, v)

/-- Embedding of `GreedyOutgroup.heightTable` (source lines 81–88) as the
height function it computes: leaves have height 0, other nodes
`1 + max(height of children)`.  The fuel exceeds the longest possible path
of an acyclic dag, on which the python recursion terminates. -/
def heightOf (E : List Edge) : ℕ → ℕ → ℕ
  | 0, _ => 0
  | fuel + 1, v =>
    let cs := dagChildren E v
    if cs.isEmpty then 0
    else (cs.map (fun c => heightOf E fuel c)).foldl max 0 + 1

/-- The height table `htable` populated by `self.heightTable(self.root, ...)`:
its keys are exactly the nodes reachable from the root. -/
def buildHtable (E : List Edge) (root : ℕ) : List (ℕ × ℕ) :=
  (reachFrom E root).map (fun v => (v, heightOf E (E.length + 1) v))

/-- Height lookup.  On the connected trees the engine receives every node of
the distance tables is root-reachable, hence present; the default `0` stands
in for python's `KeyError` on malformed input. -/
def htGetN (ht : List (ℕ × ℕ)) (v : ℕ) : ℕ :=
  (alookup v ht).getD 0

/-- Embedding of `GreedyOutgroup.onSamePath` (source lines 70–77):
dictionary-membership tests against the directed distance table. -/
def onSamePath (dmD : List (ℕ × List (ℕ × Flt))) (source sink : ℕ) : Bool :=
  (match alookup source dmD with
   | some d => (alookup sink d).isSome
   | none => false) ||
  (match alookup sink dmD with
   | some d => (alookup source d).isSome
   | none => false)

/-- Embedding of `GreedyOutgroup.inCandidateSet` (source lines 91–113).
Returns the verdict together with the updated memo dictionary
`self.candidateMap`.  Note line 103 counts a leaf by dictionary *membership*,
so memoised `False` entries also count towards the candidate fraction. -/
def inCandidateSet (t : MCTree) (cmap : List (ℕ × Bool)) (node : ℕ)
    (frac : Flt) : Bool × List (ℕ × Bool) :=
  if cmap.length = 0 then (true, cmap)
  else
    match alookup (getName t node) cmap with
    | some b => (b, cmap)
    | none =>
      let desc := bfsTraversal t node
      let leaves := desc.filter (fun c => isLeafT t c)
      let candidateLeaves :=
        (leaves.filter (fun l => (alookup (getName t l) cmap).isSome)).length
      if leaves.length = 0 then (false, aset cmap (getName t node) false)
      else if qle frac (qdiv (OfNat.ofNat candidateLeaves)
          (OfNat.ofNat leaves.length)) then
        (true, aset cmap (getName t node) true)
      else (false, aset cmap (getName t node) false)

/-- The caller-supplied parameters of `GreedyOutgroup.greedy`. -/
structure GreedyParams where
  threshold : Option ℤ
  candidateSet : Option (List ℕ)
  candidateChildFrac : Flt
  maxNumOutgroups : ℕ
deriving Repr, DecidableEq, Inhabited

/-- The threshold test of source lines 174–176:
skip when `htable[sink] - htable[source] + 1 > threshold` (python ints). -/
def thresholdRejects (thr : Option ℤ) (ht : List (ℕ × ℕ)) (sink source : ℕ) :
    Bool :=
  match thr with
  | none => false
  | some tv => decide ((htGetN ht sink : ℤ) - (htGetN ht source : ℤ) + 1 > tv)

/-- Outgroup-map read with `defaultdict(list)` semantics. -/
def ogGet (m : List (ℕ × List (ℕ × Flt))) (k : ℕ) : List (ℕ × Flt) :=
  (alookup k m).getD []

/-- Key-presence test (python `k in self.ogMap`, no default insertion). -/
def ogHasKey (m : List (ℕ × List (ℕ × Flt))) (k : ℕ) : Bool :=
  (alookup k m).isSome

/-- `self.ogMap[k].append(e)` on the `defaultdict`. -/
def ogAppend (m : List (ℕ × List (ℕ × Flt))) (k : ℕ) (e : ℕ × Flt) :
    List (ℕ × List (ℕ × Flt)) :=
  aset m k (ogGet m k ++ [e])

/-- The mutable state of one `greedy` run: the working dag, the outgroup map,
the `finished` set, the height table and the candidate memo. -/
structure GState where
  dag : List Edge
  ogMap : List (ℕ × List (ℕ × Flt))
  finished : List ℕ
  htable : List (ℕ × ℕ)
  cmap : List (ℕ × Bool)
deriving Repr, DecidableEq, Inhabited

/-- The finished-set updates at the top of the loop body (source lines
160–166): a leaf source is finished, and so is a source whose recorded
outgroup list already has `maxNumOutgroups` entries. -/
def finishedPre (t : MCTree) (pr : GreedyParams) (s : GState)
    (source : ℕ) : List ℕ :=
  let fin1 := if (dagChildren s.dag source).isEmpty
              then insertNode source s.finished else s.finished
  if ogHasKey s.ogMap (getName t source) ∧
     pr.maxNumOutgroups ≤ (ogGet s.ogMap (getName t source)).length
  then insertNode source fin1 else fin1

/-- The finished-set update after a new outgroup is appended (source lines
191–192). -/
def finishedPost (pr : GreedyParams) (source : ℕ) (fin2 : List ℕ)
    (entries : List (ℕ × Flt)) : List ℕ :=
  if pr.maxNumOutgroups ≤ entries.length then insertNode source fin2 else fin2

/-- Embedding of one iteration of the loop of `GreedyOutgroup.greedy`
(source lines 153–194) on the ordered pair `p = (dist, (source, sink))`.
The only possible error is the `assert` of line 188 (distance mismatch on a
re-run). -/
def greedyStep (t : MCTree) (dmD : List (ℕ × List (ℕ × Flt)))
    (pr : GreedyParams) (s : GState) (p : Flt × ℕ × ℕ) : Except Unit GState :=
  let dist := p.1
  let source := p.2.1
  let sink := p.2.2
  let sourceName := getName t source
  let sinkName := getName t sink
  let fin2 := finishedPre t pr s source
  let cres := inCandidateSet t s.cmap sink pr.candidateChildFrac
  let s1 : GState := { s with finished := fin2, cmap := cres.2 }
  if cres.1 = false then .ok s1
  else if thresholdRejects pr.threshold s.htable sink source then .ok s1
  else if source ∉ fin2 ∧ onSamePath dmD source sink = false then
    let dag1 := addEdge s.dag source sink
    if isAcyclicB dag1 then
      let ht1 := aset s.htable source
        (max (htGetN s.htable source) (htGetN s.htable sink + 1))
      let entries := ogGet s.ogMap sourceName
      if sinkName ∈ entries.map Prod.fst then
        match alookupLast sinkName entries with
        | some d0 =>
          if qeq d0 dist then .ok { s1 with dag := dag1, htable := ht1 }
          else .error ()
        | none => .error ()
      else
        let m1 := ogAppend s.ogMap sourceName (sinkName, dist)
        .ok { dag := dag1, ogMap := m1,
              finished := finishedPost pr source fin2 (ogGet m1 sourceName),
              htable := ht1, cmap := cres.2 }
    else .ok { s1 with dag := eraseEdge dag1 source sink }
  else .ok s1

/-- Run the loop over the remaining ordered pairs. -/
def runSteps (t : MCTree) (dmD : List (ℕ × List (ℕ × Flt)))
    (pr : GreedyParams) : GState → List (Flt × ℕ × ℕ) → Except Unit GState
  | s, [] => .ok s
  | s, p :: ps =>
    match greedyStep t dmD pr s p with
    | .error e => .error e
    | .ok s2 => runSteps t dmD pr s2 ps

/-- The unsorted candidate pairs (source lines 137–141): every `(dist,
(source, sink))` of the undirected distance table with neither end the root,
in table order. -/
def rawPairs (st : OGState) : List (Flt × ℕ × ℕ) :=
  st.dm.flatMap (fun row =>
    row.2.filterMap (fun sd =>
      if row.1 ≠ st.root ∧ sd.1 ≠ st.root then some (sd.2, row.1, sd.1)
      else none))

/-- Stable insertion of a pair into a list sorted by distance: an element is
placed after all elements of equal key, as python's stable `sort` does. -/
def insertPair (x : Flt × ℕ × ℕ) : List (Flt × ℕ × ℕ) → List (Flt × ℕ × ℕ)
  | [] => [x]
  | y :: ys => if qlt x.1 y.1 then x :: y :: ys else y :: insertPair x ys

/-- Stable sort of the candidate pairs by distance (source line 142). -/
def sortPairs (l : List (Flt × ℕ × ℕ)) : List (Flt × ℕ × ℕ) :=
  l.foldl (fun acc x => insertPair x acc) []

/-- The sorted candidate pairs processed by the greedy loop. -/
def orderedPairs (st : OGState) : List (Flt × ℕ × ℕ) :=
  sortPairs (rawPairs st)

/-- Stable insertion of an outgroup entry by distance. -/
def insertEntry (x : ℕ × Flt) : List (ℕ × Flt) → List (ℕ × Flt)
  | [] => [x]
  | y :: ys => if qlt x.2 y.2 then x :: y :: ys else y :: insertEntry x ys

/-- `sorted(outgroups, key=lambda x: x[1])` (source line 201). -/
def sortEntries (l : List (ℕ × Flt)) : List (ℕ × Flt) :=
  l.foldl (fun acc x => insertEntry x acc) []

/-- The final re-sort of every node's outgroup list (source lines 200–201). -/
def sortOgMap (m : List (ℕ × List (ℕ × Flt))) : List (ℕ × List (ℕ × Flt)) :=
  m.map (fun kv => (kv.1, sortEntries kv.2))

/-- The state at the top of `greedy` (source lines 143–151): empty finished
set, candidate memo seeded from the candidate set, fresh height table over
the current dag. -/
def initGState (st : OGState) (pr : GreedyParams) : GState :=
  { dag := st.dag
    ogMap := st.ogMap
    finished := []
    htable := buildHtable st.dag st.root
    cmap := match pr.candidateSet with
            | none => []
            | some cs => cs.map (fun c => (c, true)) }

/-- Embedding of `GreedyOutgroup.greedy` (source lines 135–201). -/
def greedyRun (st : OGState) (pr : GreedyParams) : Except Unit OGState :=
  match runSteps st.tree st.dmDirected pr (initGState st pr)
      (orderedPairs st) with
  | .error e => .error e
  | .ok s => .ok { st with dag := s.dag, ogMap := sortOgMap s.ogMap }

/-- Total number of outgroup assignments over all sources. -/
def totalAssignments (m : List (ℕ × List (ℕ × Flt))) : ℕ :=
  (m.map (fun kv => kv.2.length)).sum

/-! ### `DynamicOutgroup`: the DP outgroup selector -/

/-- A rooted tree with ordered children: the shape of the re-rooted working
copy `self.dpTree` that the DP walks over. -/
inductive RTree where
  | node (id : ℕ) (children : List RTree)
deriving Repr, Inhabited

/-- Root id of a rooted tree. -/
def rtId : RTree → ℕ
  | .node v _ => v

/-- One cell of `self.dpTable`: best score and solution for one budget. -/
structure DPEntry where
  score : Flt
  solution : List ℕ
deriving Repr, DecidableEq, Inhabited

/-- `self.dpTable[node]` as initialised by `__dpInit` (source lines 301–304):
`numOG + 1` cells `(0.0, [])`. -/
def dpInitEntries (numOG : ℕ) : List DPEntry :=
  List.replicate (numOG + 1) ⟨0, []⟩

/-- `itertools.product(*[cset] * numChildren)`: all tuples over `cset` of the
given length, leftmost coordinate varying slowest. -/
def allocations (cset : List ℕ) : ℕ → List (List ℕ)
  | 0 => [[]]
  | m + 1 =>
    cset.flatMap (fun a => (allocations cset m).map (fun al => a :: al))

/-- One iteration of the allocation loop of `__dpNode` (source lines
320–340) for an internal node: `children` pairs each child id with its
already-computed DP row.  Faithful to the source, `lossProb` is initialised
to `0.` (line 327) before being multiplied by the complement terms, so the
accumulated product is always `0` and `consProb` is always `1`; the asserts
of lines 336–337 therefore always pass and are not modelled as errors. -/
def dpAllocStep (bp : ℕ → Flt) (numOG : ℕ)
    (children : List (ℕ × List DPEntry)) (tab : List DPEntry)
    (alloc : List ℕ) : List DPEntry :=
  let csetK := alloc.sum
  if numOG < csetK then tab
  else
    let r := (children.zip alloc).foldl
      (fun (acc : Flt × List ℕ) ca =>
        let entry := ca.1.2.getD ca.2 ⟨0, []⟩
        (qmul acc.1 (qsub 1 (qmul (bp ca.1.1) entry.score)),
         acc.2 ++ entry.solution))
      ((0 : Flt), [])
    let consProb := qsub 1 r.1
    let solution := r.2
    if qlt (tab.getD csetK ⟨0, []⟩).score consProb ∧ solution.length = csetK
    then tab.set csetK ⟨consProb, solution⟩
    else tab

/-- Embedding of `DynamicOutgroup.__dpNode` (source lines 308–340): the DP
row of a node given its children's rows.  A leaf writes `(1.0, [node])` at
budget 1 (python would raise `IndexError` for `numOG = 0`; `List.set` is
then a no-op). -/
def dpNode (bp : ℕ → Flt) (numOG : ℕ) (id : ℕ)
    (children : List (ℕ × List DPEntry)) : List DPEntry :=
  if children.length = 0 then (dpInitEntries numOG).set 1 ⟨1, [id]⟩
  else
    (allocations (List.range (numOG + 1)) children.length).foldl
      (dpAllocStep bp numOG children) (dpInitEntries numOG)

/-- Embedding of `DynamicOutgroup.__dpRun` (source lines 344–347): solve all
children bottom-up, then the node itself; returns the whole DP table for the
subtree, the node's own row last.  The recursion is fuel-bounded (structural,
so that the kernel can evaluate it); the python recursion terminates on the
finite tree, and the wrapper below supplies more fuel than the tree is
deep. -/
def dpRunF (bp : ℕ → Flt) (numOG : ℕ) : ℕ → RTree → List (ℕ × List DPEntry)
  | 0, _ => []
  | fuel + 1, .node v cs =>
    let subTables := cs.map (dpRunF bp numOG fuel)
    let flat := subTables.flatten
    let childRows := cs.map (fun c =>
      (rtId c, (alookup (rtId c) flat).getD (dpInitEntries numOG)))
    flat ++ [(v, dpNode bp numOG v childRows)]



/-- The DP row of a node inside a computed table. -/
def dpRowOf (tab : List (ℕ × List DPEntry)) (v : ℕ) : List DPEntry :=
  (alookup v tab).getD []

/-- Modelled from the spec: the score the specification prescribes for an
internal node at budget `k` — the maximum, over all splits of `k` across the
children (each share in `[0, numOG]`) whose chosen solution sizes sum
exactly to `k`, of `1 − Π over children (1 − branchConservation(ci) *
DPTable[ci][ki].score)`, the children's rows being the stored DP rows. -/
def specNodeScore (bp : ℕ → Flt) (numOG : ℕ)
    (children : List (ℕ × List DPEntry)) (k : ℕ) : Flt :=
  let allocs := (allocations (List.range (numOG + 1)) children.length).filter
    (fun al => al.sum = k ∧
      ((children.zip al).map
        (fun ca => (ca.1.2.getD ca.2 ⟨0, []⟩).solution.length)).sum = k)
  (allocs.map (fun al =>
    qsub 1 (((children.zip al).map
      (fun ca => qsub 1 (qmul (bp ca.1.1)
        (ca.1.2.getD ca.2 ⟨0, []⟩).score))).foldl qmul 1))).foldl
    qmax 0

/-! ### `DynamicOutgroup.importTree`: per-leaf sequence statistics -/

/-- Record counting of the per-event loop body of `DynamicOutgroup.importTree`
(source lines 236–245): each sequence file is a list of record lengths; the
counters `count, totalLen` are reset to `0, 0` inside the per-file loop, so
after the loop only the statistics of the last file survive (`(0, 0)` stands
for the empty file list, where python would leave the counters unbound). -/
def scanFastaFiles (files : List (List ℕ)) : ℕ × ℕ :=
  files.foldl (fun _ f => (f.length, f.sum)) (0, 0)

/-- The ancestor walk of source lines 253–261: propagate one event's
`(count, totalLen)` from its node up to the root, taking the minimum count
and maximum total length at every ancestor already seen. -/
def propagateUp (parent : ℕ → Option ℕ) :
    ℕ → ℕ → ℕ → ℕ → List (ℕ × ℕ × ℕ) → List (ℕ × ℕ × ℕ)
  | 0, _, _, _, info => info
  | fuel + 1, x, c, l, info =>
    match parent x with
    | none => info
    | some p =>
      let info2 :=
        match alookup p info with
        | none => aset info p (c, l)
        | some pcl => aset info p (min c pcl.1, max l pcl.2)
      propagateUp parent fuel p c l info2

/-- Embedding of the sequence-statistics part of `DynamicOutgroup.importTree`
(source lines 228–261): `seqMap` lists, per event node, its sequence files
(a directory contributes every contained file, in listing order); the result
is `self.sequenceInfo` as an association list node → (count, totalLen). -/
def importSeqInfo (parent : ℕ → Option ℕ) (fuel : ℕ)
    (seqMap : List (ℕ × List (List ℕ))) : List (ℕ × ℕ × ℕ) :=
  seqMap.foldl
    (fun info ev =>
      let cl := scanFastaFiles ev.2
      let info2 := aset info ev.1 cl
      propagateUp parent fuel ev.1 cl.1 cl.2 info2)
    []

/-! ### `DynamicOutgroup.compute` -/

/-- Embedding of `DynamicOutgroup.__computeBranchConservation` (source lines
351–371).  `expFn` abstracts `math.exp` (transcendental; any of its rational
approximations instantiates it). -/
def computeBranchConservation (rootInfo nodeInfo : ℕ × ℕ)
    (branchLength : Option Flt) (expFn : Flt → Flt) : Flt :=
  let lenFrac : Flt :=
    qdiv (OfNat.ofNat nodeInfo.2) (OfNat.ofNat rootInfo.2)
  let pLoss := qmax 0 (qsub 1 lenFrac)
  let numExtraFrag : ℕ := nodeInfo.1 - rootInfo.1
  let pFrag : Flt := qdiv (OfNat.ofNat numExtraFrag) (OfNat.ofNat rootInfo.2)
  let bl := match branchLength with
            | none => ⟨1, 10⟩
            | some b => if qlt b 0 ∨ qle 1 b then (⟨1, 10⟩ : Flt) else b
  let jcMutProb := qsub ⟨3, 4⟩ (qmul ⟨3, 4⟩ (expFn (qneg bl)))
  qmul (qmul (qsub 1 pLoss) (qsub 1 pFrag)) (qsub 1 jcMutProb)

/-- Undirected neighbours of a node in a weighted edge list (out-neighbours
first, then in-neighbours, in edge order). -/
def neighborsU (E : List WEdge) (v : ℕ) : List ℕ :=
  (E.filter (fun e => e.1 = v)).map (fun e => e.2.1) ++
  (E.filter (fun e => e.2.1 = v)).map (fun e => e.1)

/-- Build the rooted view of an undirected edge set from `v`, walking away
from the parent (fuel-bounded recursion over the acyclic tree). -/
def buildRT (E : List WEdge) : ℕ → Option ℕ → ℕ → RTree
  | 0, _, v => .node v []
  | fuel + 1, par, v =>
    let ns := (neighborsU E v).filter (fun w => par ≠ some w)
    .node v (ns.map (fun w => buildRT E fuel (some v) w))

/-- Modelled from the spec (§4.6 step 1) and `__dpInit` lines 289–293 using
the external `MultiCactusTree.removeEdge`/`reroot`: cut the ancestor's own
child edges out of a deep copy of the tree and re-root the remainder at the
ancestor. -/
def rerootCut (t : MCTree) (a : ℕ) : RTree :=
  let cut := t.edges.filter (fun e => ¬(e.1 = a))
  buildRT cut (t.edges.length + 1) none a

/-- The symmetric branch length between two nodes of the original tree
(`dpTree.getWeight(parent, node, None)` after re-rooting, which returns
`None` when no such edge exists). -/
def weightBetween (t : MCTree) (u v : ℕ) : Option Flt :=
  match t.edges.find? (fun e => (e.1 = u ∧ e.2.1 = v) ∨ (e.1 = v ∧ e.2.1 = u)) with
  | some e => some e.2.2
  | none => none

/-- Pre-order traversal of a rooted tree with parent tracking, collecting
`self.branchProbs` for every node that has a parent (source lines 296–298). -/
def branchProbsOf (t : MCTree) (seqInfo : List (ℕ × ℕ × ℕ)) (rootInfo : ℕ × ℕ)
    (expFn : Flt → Flt) : Option ℕ → RTree → List (ℕ × Flt)
  | par, .node v cs =>
    let here :=
      match par with
      | none => []
      | some p =>
        [(v, computeBranchConservation rootInfo
            ((alookup v seqInfo).getD (0, 0)) (weightBetween t p v) expFn)]
    here ++ (cs.attach.map
      (fun c => branchProbsOf t seqInfo rootInfo expFn (some v) c.1)).flatten
termination_by _ t => sizeOf t
decreasing_by
  simp only [RTree.node.sizeOf_spec]
  have h := List.sizeOf_lt_of_mem c.2
  omega

/-- The result of `DynamicOutgroup.compute`: the rebuilt outgroup map
(ancestor name → chosen leaf node ids, as the source stores the raw DP
solution list) and the augmented dag. -/
structure DynResult where
  ogMapD : List (ℕ × List ℕ)
  dagD : List Edge
deriving Repr, DecidableEq, Inhabited

/-- Embedding of `DynamicOutgroup.compute` (source lines 264–275) together
with `__dpInit`/`__dpRun`: `prevOgMap` stands for `self.ogMap` on entry,
which line 265 (`self.ogMap = dict()`) discards before any selection. -/
def computeDyn (t : MCTree) (seqInfo : List (ℕ × ℕ × ℕ)) (numOG : ℕ)
    (expFn : Flt → Flt) (prevOgMap : List (ℕ × List ℕ)) (dag0 : List Edge) :
    DynResult :=
  let rootInfo := (alookup t.root seqInfo).getD (0, 0)
  let start : DynResult := { ogMapD := [], dagD := dag0 }
  ((bfsTraversal t t.root).filter (fun n => ¬ isLeafT t n)).foldl
    (fun acc node =>
      let rt := rerootCut t node
      let bps := branchProbsOf t seqInfo rootInfo expFn none rt
      let tab := dpRunF (fun n => (alookup n bps).getD 0) numOG
        (t.edges.length + 2) rt
      let sol := ((dpRowOf tab node).getD numOG ⟨0, []⟩).solution
      { ogMapD := aset acc.ogMapD (getName t node) sol
        dagD := sol.foldl (fun d og => addEdge d node og) acc.dagD })
    start

/-- An outgroup list is ordered ascending by distance. -/
def SortedByDist (l : List (ℕ × Flt)) : Prop :=
  l.Pairwise (fun a b => qle a.2 b.2)

/-! ### Concrete instances used by witnesses and counterexamples -/

/-- A 3-leaf caterpillar tree `((A,B)X,C)root` (ids: root 0, X 1, leaves
A 2, B 3, C 4), the spec's running example. -/
def exTreeC1 : MCTree :=
  { nodes := [0, 1, 2, 3, 4]
    edges := [(0, 1, 1), (1, 2, 1), (1, 3, 1), (0, 4, 1)]
    root := 0
    subtreeRoots := [0]
    names := [] }

/-- Default greedy parameters (no threshold, no candidate set, one
outgroup). -/
def exParamsC1 : GreedyParams := ⟨none, none, 2, 1⟩

/-- The imported state of the C1 witness tree. -/
def exStC1 : OGState := (importTreeG exTreeC1).toOption.getD default

/-- The result of one greedy run on the C1 witness tree. -/
def exResC1 : OGState := (greedyRun exStC1 exParamsC1).toOption.getD default

/-- The caterpillar tree again, for the C4 runs. -/
def exTreeC4 : MCTree :=
  { nodes := [0, 1, 2, 3, 4]
    edges := [(0, 1, 1), (1, 2, 1), (1, 3, 1), (0, 4, 1)]
    root := 0
    subtreeRoots := [0]
    names := [] }

/-- Greedy parameters with `maxNumOutgroups = 1` for the C4 witness. -/
def exParamsC4 : GreedyParams := ⟨none, none, 2, 1⟩

/-- Greedy parameters with `maxNumOutgroups = 0` for the C4 counterexample. -/
def exParamsC4z : GreedyParams := ⟨none, none, 2, 0⟩

/-- The imported state of the C4 tree. -/
def exStC4 : OGState := (importTreeG exTreeC4).toOption.getD default

/-- First greedy run of the C4 witness. -/
def exRes1C4 : OGState := (greedyRun exStC4 exParamsC4).toOption.getD default

/-- First greedy run of the C4 counterexample (`maxNumOutgroups = 0`). -/
def exZ1C4 : OGState := (greedyRun exStC4 exParamsC4z).toOption.getD default

/-- Second greedy run of the C4 counterexample. -/
def exZ2C4 : OGState := (greedyRun exZ1C4 exParamsC4z).toOption.getD default

/-- The C5 counterexample tree: root 0, internal chain 0→2→3, further
internal node 1, leaves 4, 5 (branch lengths as listed). -/
def exTreeC5 : MCTree :=
  { nodes := [0, 1, 2, 3, 4, 5]
    edges := [(0, 1, 2), (0, 2, 4), (2, 3, 2), (1, 4, 1), (3, 5, 4)]
    root := 0
    subtreeRoots := [0]
    names := [] }

/-- C5 parameters with the smaller threshold 1. -/
def exParamsC5a : GreedyParams := ⟨some 1, none, 2, 2⟩

/-- C5 parameters with the larger threshold 2. -/
def exParamsC5b : GreedyParams := ⟨some 2, none, 2, 2⟩

/-- The imported state of the C5 tree. -/
def exStC5 : OGState := (importTreeG exTreeC5).toOption.getD default

/-- The greedy result on the C5 tree with threshold 1. -/
def exResC5a : OGState := (greedyRun exStC5 exParamsC5a).toOption.getD default

/-- The greedy result on the C5 tree with threshold 2. -/
def exResC5b : OGState := (greedyRun exStC5 exParamsC5b).toOption.getD default

/-- The C8 counterexample graph: node 3 has the two parents 1 and 2 (and the
graph is also not a tree); the root is a subtree root. -/
def exTreeC8 : MCTree :=
  { nodes := [0, 1, 2, 3]
    edges := [(0, 1, 1), (0, 2, 1), (1, 3, 1), (2, 3, 1)]
    root := 0
    subtreeRoots := [0]
    names := [] }

/-- The caterpillar tree for the C9 witness. -/
def exTreeC9 : MCTree :=
  { nodes := [0, 1, 2, 3, 4]
    edges := [(0, 1, 1), (1, 2, 1), (1, 3, 1), (0, 4, 1)]
    root := 0
    subtreeRoots := [0]
    names := [] }

/-- Parameters for the C9 witness. -/
def exParamsC9 : GreedyParams := ⟨none, none, 2, 1⟩

/-- The imported state of the C9 witness tree. -/
def exStC9 : OGState := (importTreeG exTreeC9).toOption.getD default

/-- The greedy result of the C9 witness run. -/
def exResC9 : OGState := (greedyRun exStC9 exParamsC9).toOption.getD default

/-! ## Theorems

First the semantics of the embedded acyclicity check `isAcyclicB`, then the
per-claim results. -/

/-- Membership in one expansion step of the reachability closure. -/
theorem mem_stepReach {E : List Edge} {S : List ℕ} {x : ℕ} :
    x ∈ stepReach E S ↔ x ∈ S ∨ ∃ u, u ∈ S ∧ (u, x) ∈ E := by
  constructor
  · intro hx
    rw [stepReach, List.mem_dedup] at hx
    rcases List.mem_append.1 hx with h | h
    · exact .inl h
    · rcases List.mem_map.1 h with ⟨e, he, hex⟩
      rcases List.mem_filter.1 he with ⟨heE, hS⟩
      subst hex
      exact .inr ⟨e.1, of_decide_eq_true hS, by simpa using heE⟩
  · intro hx
    rw [stepReach, List.mem_dedup]
    apply List.mem_append.2
    rcases hx with h | ⟨u, hu, he⟩
    · exact .inl h
    · exact .inr (List.mem_map.2 ⟨(u, x), List.mem_filter.2 ⟨he, decide_eq_true hu⟩, rfl⟩)

/-- Everything in the iterated closure is reachable. -/
theorem reach_sound (E : List Edge) (v : ℕ) :
    ∀ k x, x ∈ (stepReach E)^[k] [v] → Relation.ReflTransGen (RelE E) v x := by
  intro k
  induction k with
  | zero =>
    intro x hx
    simp only [Function.iterate_zero_apply, List.mem_singleton] at hx
    subst hx
    exact .refl
  | succ n ih =>
    intro x hx
    rw [Function.iterate_succ_apply'] at hx
    rcases mem_stepReach.1 hx with h | ⟨u, hu, he⟩
    · exact ih x h
    · exact (ih u hu).tail he

/-- The closure iterates grow monotonically. -/
theorem iter_mono_le (E : List Edge) (v : ℕ) (a : ℕ) :
    ∀ b, a ≤ b → ∀ x, x ∈ (stepReach E)^[a] [v] → x ∈ (stepReach E)^[b] [v] := by
  intro b
  induction b with
  | zero =>
    intro hab x hx
    have ha : a = 0 := Nat.le_zero.1 hab
    subst ha
    exact hx
  | succ n ih =>
    intro hab x hx
    rcases Nat.lt_or_ge a (n + 1) with h | h
    · have hx2 := ih (Nat.lt_succ_iff.1 h) x hx
      rw [Function.iterate_succ_apply']
      exact mem_stepReach.2 (.inl hx2)
    · have ha : a = n + 1 := le_antisymm hab h
      subst ha
      exact hx

/-- The closure iterates stay inside the start node and the edge targets. -/
theorem iter_subset_univ (E : List Edge) (v : ℕ) :
    ∀ k x, x ∈ (stepReach E)^[k] [v] → x = v ∨ x ∈ E.map (fun e => e.2) := by
  intro k
  induction k with
  | zero =>
    intro x hx
    simp only [Function.iterate_zero_apply, List.mem_singleton] at hx
    exact .inl hx
  | succ n ih =>
    intro x hx
    rw [Function.iterate_succ_apply'] at hx
    rcases mem_stepReach.1 hx with h | ⟨u, _, he⟩
    · exact ih x h
    · exact .inr (List.mem_map.2 ⟨(u, x), he, rfl⟩)

/-- The expansion step is determined by membership. -/
theorem stepReach_memEq (E : List Edge) {S T : List ℕ}
    (h : ∀ y, y ∈ S ↔ y ∈ T) : ∀ x, x ∈ stepReach E S ↔ x ∈ stepReach E T := by
  intro x
  rw [mem_stepReach, mem_stepReach]
  constructor
  · rintro (hx | ⟨u, hu, he⟩)
    · exact .inl ((h x).1 hx)
    · exact .inr ⟨u, (h u).1 hu, he⟩
  · rintro (hx | ⟨u, hu, he⟩)
    · exact .inl ((h x).2 hx)
    · exact .inr ⟨u, (h u).2 hu, he⟩

/-- Once an iterate stops growing it is stable forever. -/
theorem iter_stable (E : List Edge) (v : ℕ) (k : ℕ)
    (h : ∀ x, x ∈ (stepReach E)^[k + 1] [v] ↔ x ∈ (stepReach E)^[k] [v]) :
    ∀ m, k ≤ m → ∀ x,
      x ∈ (stepReach E)^[m] [v] ↔ x ∈ (stepReach E)^[k] [v] := by
  intro m
  induction m with
  | zero =>
    intro hm x
    have hk : k = 0 := Nat.le_zero.1 hm
    subst hk
    exact Iff.rfl
  | succ n ih =>
    intro hm x
    rcases Nat.lt_or_ge k (n + 1) with hlt | hge
    · have hn := ih (Nat.lt_succ_iff.1 hlt)
      rw [Function.iterate_succ_apply']
      rw [Function.iterate_succ_apply'] at h
      exact (stepReach_memEq E hn x).trans (h x)
    · have hk : k = n + 1 := le_antisymm hm hge
      subst hk
      exact Iff.rfl

/-- Some iterate within the fuel bound is a fixpoint (by cardinality). -/
theorem iter_exists_fixpoint (E : List Edge) (v : ℕ) :
    ∃ k, k ≤ E.length ∧ ∀ x,
      x ∈ (stepReach E)^[k + 1] [v] ↔ x ∈ (stepReach E)^[k] [v] := by
  by_contra hcon
  push_neg at hcon
  have grow : ∀ k, k ≤ E.length →
      ((stepReach E)^[k] [v]).toFinset ⊂ ((stepReach E)^[k + 1] [v]).toFinset := by
    intro k hk
    rw [Finset.ssubset_iff_subset_ne]
    constructor
    · intro y hy
      rw [List.mem_toFinset] at hy ⊢
      exact iter_mono_le E v k (k + 1) (Nat.le_succ k) y hy
    · intro heq
      obtain ⟨x, hx⟩ := hcon k hk
      have hiff : ∀ y,
          y ∈ (stepReach E)^[k + 1] [v] ↔ y ∈ (stepReach E)^[k] [v] := by
        intro y
        constructor
        · intro h1
          have h2 := List.mem_toFinset.2 h1
          rw [← heq] at h2
          exact List.mem_toFinset.1 h2
        · intro h2
          exact iter_mono_le E v k (k + 1) (Nat.le_succ k) y h2
      rcases hx with ⟨h1, h2⟩ | ⟨h1, h2⟩
      · exact h2 ((hiff x).1 h1)
      · exact h1 ((hiff x).2 h2)
  have cards : ∀ k, k ≤ E.length + 1 →
      k + 1 ≤ ((stepReach E)^[k] [v]).toFinset.card := by
    intro k
    induction k with
    | zero =>
      intro _
      simp
    | succ n ih =>
      intro hn
      have hn' : n ≤ E.length := Nat.lt_succ_iff.1 hn
      have h1 := ih (le_trans hn' (Nat.le_succ _))
      have h2 := Finset.card_lt_card (grow n hn')
      omega
  have hbig := cards (E.length + 1) (le_refl _)
  have hsub : ((stepReach E)^[E.length + 1] [v]).toFinset ⊆
      (v :: E.map (fun e => e.2)).toFinset := by
    intro y hy
    rw [List.mem_toFinset] at hy ⊢
    rcases iter_subset_univ E v (E.length + 1) y hy with h | h
    · exact h ▸ List.mem_cons_self _ _
    · exact List.mem_cons_of_mem _ h
  have hcard := le_trans (Finset.card_le_card hsub)
    (List.toFinset_card_le (v :: E.map (fun e => e.2)))
  simp only [List.length_cons, List.length_map] at hcard
  omega

/-- Everything reachable is in the closure. -/
theorem reach_complete (E : List Edge) (v x : ℕ)
    (h : Relation.ReflTransGen (RelE E) v x) : x ∈ reachFrom E v := by
  obtain ⟨k, hk, hfix⟩ := iter_exists_fixpoint E v
  have hmk := iter_stable E v k hfix (E.length + 1)
    (le_trans hk (Nat.le_succ _))
  have closed : ∀ y z, y ∈ reachFrom E v → (y, z) ∈ E → z ∈ reachFrom E v := by
    intro y z hy he
    have hy2 : y ∈ (stepReach E)^[k] [v] := (hmk y).1 hy
    have hz : z ∈ (stepReach E)^[k + 1] [v] := by
      rw [Function.iterate_succ_apply']
      exact mem_stepReach.2 (.inr ⟨y, hy2, he⟩)
    exact (hmk z).2 ((hfix z).1 hz)
  induction h with
  | refl =>
    exact iter_mono_le E v 0 (E.length + 1) (Nat.zero_le _) v (by simp)
  | tail _ hbc ih => exact closed _ _ ih hbc

/-- The embedded `is_directed_acyclic_graph` check is correct: it returns
`true` exactly when the edge list has no directed cycle. -/
theorem isAcyclicB_iff (E : List Edge) : isAcyclicB E = true ↔ NoCycle E := by
  constructor
  · intro hB v hcyc
    rcases Relation.TransGen.head'_iff.1 hcyc with ⟨w, hvw, hwv⟩
    have hreach : v ∈ reachFrom E w := reach_complete E w v hwv
    have hany : E.any (fun e => decide (e.1 ∈ reachFrom E e.2)) = true :=
      List.any_eq_true.2 ⟨(v, w), hvw, decide_eq_true hreach⟩
    rw [isAcyclicB, hany] at hB
    simp at hB
  · intro hnc
    rw [isAcyclicB]
    by_contra hB
    have hany : E.any (fun e => decide (e.1 ∈ reachFrom E e.2)) = true := by
      cases hE : E.any (fun e => decide (e.1 ∈ reachFrom E e.2))
      · rw [hE] at hB
        simp at hB
      · rfl
    rcases List.any_eq_true.1 hany with ⟨e, heE, hdec⟩
    have hreach : e.1 ∈ reachFrom E e.2 := of_decide_eq_true hdec
    have hrtg := reach_sound E e.2 (E.length + 1) e.1 hreach
    have hEe : RelE E e.1 e.2 := by
      rw [RelE]
      exact (Prod.mk.eta (p := e)) ▸ heE
    exact hnc e.1 (Relation.TransGen.head' hEe hrtg)

/-! ### Association list and set-helper lemmas -/

theorem alookup_aset_self {β : Type} (l : List (ℕ × β)) (k : ℕ) (v : β) :
    alookup k (aset l k v) = some v := by
  induction l with
  | nil => simp [aset, alookup]
  | cons kv rest ih =>
    by_cases h : kv.1 = k
    · simp [aset, h, alookup]
    · simp [aset, h, alookup, ih]

theorem alookup_aset_ne {β : Type} (l : List (ℕ × β)) (k k' : ℕ) (v : β)
    (h : k' ≠ k) : alookup k' (aset l k v) = alookup k' l := by
  induction l with
  | nil => simp [aset, alookup, Ne.symm h]
  | cons kv rest ih =>
    obtain ⟨a, b⟩ := kv
    by_cases hk : a = k
    · subst hk
      simp [aset, alookup, Ne.symm h]
    · by_cases hk' : a = k'
      · simp [aset, hk, alookup, hk', h]
      · simp [aset, hk, alookup, hk', ih]

theorem mem_insertNode {v a : ℕ} {l : List ℕ} :
    a ∈ insertNode v l ↔ a = v ∨ a ∈ l := by
  by_cases h : v ∈ l
  · simp only [insertNode, if_pos h]
    constructor
    · exact .inr
    · rintro (rfl | ha)
      · exact h
      · exact ha
  · simp [insertNode, if_neg h, or_comm]

theorem self_mem_insertNode (v : ℕ) (l : List ℕ) : v ∈ insertNode v l :=
  mem_insertNode.2 (.inl rfl)

theorem mem_of_mem_insertNode {v a : ℕ} {l : List ℕ}
    (hne : a ≠ v) (h : a ∈ insertNode v l) : a ∈ l := by
  rcases mem_insertNode.1 h with rfl | h2
  · exact absurd rfl hne
  · exact h2

theorem ogGet_ogAppend_self (m : List (ℕ × List (ℕ × Flt))) (k : ℕ) (e : ℕ × Flt) :
    ogGet (ogAppend m k e) k = ogGet m k ++ [e] := by
  simp [ogGet, ogAppend, alookup_aset_self]

theorem ogGet_ogAppend_ne (m : List (ℕ × List (ℕ × Flt))) (k k' : ℕ) (e : ℕ × Flt)
    (h : k' ≠ k) : ogGet (ogAppend m k e) k' = ogGet m k' := by
  simp [ogGet, ogAppend, alookup_aset_ne _ _ _ _ h]

theorem eraseEdge_addEdge (E : List Edge) (u v : ℕ) (h : (u, v) ∉ E) :
    eraseEdge (addEdge E u v) u v = E := by
  rw [addEdge, if_neg h, eraseEdge, List.erase_append_right _ h]
  simp

theorem alookupLast_mem {β : Type} {k : ℕ} {l : List (ℕ × β)} {v : β}
    (h : alookupLast k l = some v) : (k, v) ∈ l := by
  rw [alookupLast] at h
  rw [← List.mem_reverse]
  generalize hrev : l.reverse = r at h
  clear hrev
  induction r with
  | nil => simp [alookup] at h
  | cons kv rest ih =>
    rw [alookup] at h
    by_cases hk : kv.1 = k
    · rw [if_pos hk] at h
      injection h with h
      subst h
      subst hk
      exact List.mem_cons_self _ _
    · rw [if_neg hk] at h
      exact List.mem_cons_of_mem _ (ih h)

theorem alookupLast_isSome_of_mem_fst {β : Type} {k : ℕ} {l : List (ℕ × β)}
    (h : k ∈ l.map Prod.fst) : ∃ v, alookupLast k l = some v := by
  rw [alookupLast]
  have h2 : k ∈ l.reverse.map Prod.fst := by
    rw [List.map_reverse, List.mem_reverse]
    exact h
  generalize l.reverse = r at h2
  induction r with
  | nil => simp at h2
  | cons kv rest ih =>
    rw [alookup]
    by_cases hk : kv.1 = k
    · exact ⟨kv.2, by rw [if_pos hk]⟩
    · rw [if_neg hk]
      apply ih
      simp only [List.map_cons, List.mem_cons] at h2
      rcases h2 with h2 | h2
      · exact absurd h2.symm hk
      · exact h2

/-! ### Structure of one greedy step -/

/-- A source whose list is already full is marked finished before the
assignment guard is evaluated. -/
theorem mem_finishedPre_of_full (t : MCTree) (pr : GreedyParams) (s : GState)
    (source : ℕ)
    (hcond : ogHasKey s.ogMap (getName t source) = true ∧
      pr.maxNumOutgroups ≤ (ogGet s.ogMap (getName t source)).length) :
    source ∈ finishedPre t pr s source := by
  simp only [finishedPre]
  rw [if_pos hcond]
  exact self_mem_insertNode _ _

/-- Case analysis of a successful greedy step: either the outgroup map is
unchanged (pair skipped, assert-continue, or cycle rejection), or exactly one
entry was appended, under the recorded guards. -/
theorem greedyStep_cases (t : MCTree) (dmD : List (ℕ × List (ℕ × Flt)))
    (pr : GreedyParams) (s : GState) (p : Flt × ℕ × ℕ) (s' : GState)
    (h : greedyStep t dmD pr s p = .ok s') :
    (s'.ogMap = s.ogMap ∧
      (s'.dag = s.dag ∨
       (isAcyclicB (addEdge s.dag p.2.1 p.2.2) = true ∧
        s'.dag = addEdge s.dag p.2.1 p.2.2) ∨
       (isAcyclicB (addEdge s.dag p.2.1 p.2.2) = false ∧
        s'.dag = eraseEdge (addEdge s.dag p.2.1 p.2.2) p.2.1 p.2.2))) ∨
    (s'.ogMap = ogAppend s.ogMap (getName t p.2.1) (getName t p.2.2, p.1) ∧
     s'.dag = addEdge s.dag p.2.1 p.2.2 ∧
     isAcyclicB (addEdge s.dag p.2.1 p.2.2) = true ∧
     onSamePath dmD p.2.1 p.2.2 = false ∧
     getName t p.2.2 ∉ (ogGet s.ogMap (getName t p.2.1)).map Prod.fst ∧
     ¬(ogHasKey s.ogMap (getName t p.2.1) = true ∧
       pr.maxNumOutgroups ≤ (ogGet s.ogMap (getName t p.2.1)).length)) := by
  simp only [greedyStep] at h
  split at h
  · injection h with h
    subst h
    exact .inl ⟨rfl, .inl rfl⟩
  · split at h
    · injection h with h
      subst h
      exact .inl ⟨rfl, .inl rfl⟩
    · split at h
      next hguard =>
        split at h
        next hacyc =>
          split at h
          next hmemfst =>
            split at h
            next d0 heq =>
              split at h
              next hq =>
                injection h with h
                subst h
                exact .inl ⟨rfl, .inr (.inl ⟨hacyc, rfl⟩)⟩
              next hq => exact absurd h (by simp)
            next heq => exact absurd h (by simp)
          next hnotmem =>
            injection h with h
            subst h
            refine .inr ⟨rfl, rfl, hacyc, hguard.2, hnotmem, ?_⟩
            intro hcond
            exact hguard.1 (mem_finishedPre_of_full t pr s p.2.1 hcond)
        next hacyc =>
          injection h with h
          subst h
          exact .inl ⟨rfl, .inr (.inr ⟨Bool.eq_false_iff.2 hacyc, rfl⟩)⟩
      next hguard =>
        injection h with h
        subst h
        exact .inl ⟨rfl, .inl rfl⟩

/-- A greedy step can only fail at the distance-consistency assert of source
line 188: the sink is already recorded for the source but with a different
distance. -/
theorem greedyStep_error_cases (t : MCTree) (dmD : List (ℕ × List (ℕ × Flt)))
    (pr : GreedyParams) (s : GState) (p : Flt × ℕ × ℕ) (er : Unit)
    (h : greedyStep t dmD pr s p = .error er) :
    getName t p.2.2 ∈ (ogGet s.ogMap (getName t p.2.1)).map Prod.fst ∧
    ∀ d0, alookupLast (getName t p.2.2) (ogGet s.ogMap (getName t p.2.1)) =
      some d0 → ¬ qeq d0 p.1 := by
  simp only [greedyStep] at h
  split at h
  · exact absurd h (by simp)
  · split at h
    · exact absurd h (by simp)
    · split at h
      next hguard =>
        split at h
        next hacyc =>
          split at h
          next hmemfst =>
            split at h
            next d0 heq2 =>
              split at h
              next hq => exact absurd h (by simp)
              next hq =>
                refine ⟨hmemfst, ?_⟩
                intro d1 hd1
                rw [heq2] at hd1
                injection hd1 with hd1
                subst hd1
                exact hq
            next heq2 =>
              refine ⟨hmemfst, ?_⟩
              intro d1 hd1
              rw [heq2] at hd1
              cases hd1
          next hnotmem => exact absurd h (by simp)
        next hacyc => exact absurd h (by simp)
      next hguard => exact absurd h (by simp)

/-- A step keeps the working dag acyclic. -/
theorem greedyStep_acyclic (t : MCTree) (dmD : List (ℕ × List (ℕ × Flt)))
    (pr : GreedyParams) (s : GState) (p : Flt × ℕ × ℕ) (s' : GState)
    (hs : isAcyclicB s.dag = true)
    (h : greedyStep t dmD pr s p = .ok s') : isAcyclicB s'.dag = true := by
  rcases greedyStep_cases t dmD pr s p s' h with
    ⟨_, hd | ⟨hac, hd⟩ | ⟨hac, hd⟩⟩ | ⟨_, hd, hac, _⟩
  · rw [hd]
    exact hs
  · rw [hd]
    exact hac
  · by_cases hmem : (p.2.1, p.2.2) ∈ s.dag
    · rw [addEdge, if_pos hmem, hs] at hac
      cases hac
    · rw [hd, eraseEdge_addEdge _ _ _ hmem]
      exact hs
  · rw [hd]
    exact hac

/-- When adding the candidate edge fails the acyclicity check, the step
restores the dag and records nothing in the outgroup map. -/
theorem greedyStep_reject (t : MCTree) (dmD : List (ℕ × List (ℕ × Flt)))
    (pr : GreedyParams) (s : GState) (p : Flt × ℕ × ℕ) (s' : GState)
    (hs : isAcyclicB s.dag = true)
    (hrej : isAcyclicB (addEdge s.dag p.2.1 p.2.2) = false)
    (h : greedyStep t dmD pr s p = .ok s') :
    s'.dag = s.dag ∧ s'.ogMap = s.ogMap := by
  rcases greedyStep_cases t dmD pr s p s' h with
    ⟨hm, hd | ⟨hac, hd⟩ | ⟨_, hd⟩⟩ | ⟨_, _, hac, _⟩
  · exact ⟨hd, hm⟩
  · rw [hac] at hrej
    cases hrej
  · by_cases hmem : (p.2.1, p.2.2) ∈ s.dag
    · rw [addEdge, if_pos hmem, hs] at hrej
      cases hrej
    · rw [hd, eraseEdge_addEdge _ _ _ hmem]
      exact ⟨rfl, hm⟩
  · rw [hac] at hrej
    cases hrej

/-! ### Invariant preservation along the greedy loop -/

/-- Generic invariant preservation for the pair loop. -/
theorem runSteps_inv (t : MCTree) (dmD : List (ℕ × List (ℕ × Flt)))
    (pr : GreedyParams) (P : (Flt × ℕ × ℕ) → Prop) (M : GState → Prop)
    (hstep : ∀ s p s', P p → M s → greedyStep t dmD pr s p = .ok s' → M s') :
    ∀ l s s', (∀ p ∈ l, P p) → M s →
      runSteps t dmD pr s l = .ok s' → M s' := by
  intro l
  induction l with
  | nil =>
    intro s s' _ hM h
    rw [runSteps] at h
    injection h with h
    subst h
    exact hM
  | cons p ps ih =>
    intro s s' hP hM h
    rw [runSteps] at h
    cases hg : greedyStep t dmD pr s p with
    | error e =>
      rw [hg] at h
      exact absurd h (by simp)
    | ok s2 =>
      rw [hg] at h
      exact ih s2 s' (fun q hq => hP q (List.mem_cons_of_mem _ hq))
        (hstep s p s2 (hP p (List.mem_cons_self _ _)) hM hg) h

/-- Generic totality of the pair loop: when the invariant rules out the
assert, each step succeeds, hence so does the whole loop. -/
theorem runSteps_total (t : MCTree) (dmD : List (ℕ × List (ℕ × Flt)))
    (pr : GreedyParams) (P : (Flt × ℕ × ℕ) → Prop) (M : GState → Prop)
    (hstep : ∀ s p, P p → M s →
      ∃ s', greedyStep t dmD pr s p = .ok s' ∧ M s') :
    ∀ l s, (∀ p ∈ l, P p) → M s →
      ∃ s', runSteps t dmD pr s l = .ok s' ∧ M s' := by
  intro l
  induction l with
  | nil =>
    intro s _ hM
    exact ⟨s, rfl, hM⟩
  | cons p ps ih =>
    intro s hP hM
    obtain ⟨s2, hg, hM2⟩ := hstep s p (hP p (List.mem_cons_self _ _)) hM
    obtain ⟨s', hrun, hM'⟩ :=
      ih s2 (fun q hq => hP q (List.mem_cons_of_mem _ hq)) hM2
    refine ⟨s', ?_, hM'⟩
    rw [runSteps, hg]
    exact hrun

/-! ### The stable sorts -/

theorem insertPair_perm (x : Flt × ℕ × ℕ) (l : List (Flt × ℕ × ℕ)) :
    (insertPair x l).Perm (x :: l) := by
  induction l with
  | nil => exact .refl _
  | cons y ys ih =>
    rw [insertPair]
    split
    · exact .refl _
    · exact (ih.cons y).trans (List.Perm.swap x y ys)

theorem sortPairs_perm (l : List (Flt × ℕ × ℕ)) : (sortPairs l).Perm l := by
  suffices h : ∀ acc : List (Flt × ℕ × ℕ),
      (l.foldl (fun acc x => insertPair x acc) acc).Perm (acc ++ l) by
    simpa [sortPairs] using h []
  induction l with
  | nil => intro acc; simp
  | cons x xs ih =>
    intro acc
    rw [List.foldl_cons]
    refine (ih (insertPair x acc)).trans ?_
    refine (List.Perm.append_right xs (insertPair_perm x acc)).trans ?_
    have h1 : x :: acc ++ xs = x :: (acc ++ xs) := rfl
    rw [h1]
    have h2 := (@List.perm_middle _ x acc xs).symm
    exact h2

theorem mem_orderedPairs_iff (st : OGState) (p : Flt × ℕ × ℕ) :
    p ∈ orderedPairs st ↔ p ∈ rawPairs st :=
  (sortPairs_perm (rawPairs st)).mem_iff

theorem insertEntry_perm (x : ℕ × Flt) (l : List (ℕ × Flt)) :
    (insertEntry x l).Perm (x :: l) := by
  induction l with
  | nil => exact .refl _
  | cons y ys ih =>
    rw [insertEntry]
    split
    · exact .refl _
    · exact (ih.cons y).trans (List.Perm.swap x y ys)

theorem sortEntries_perm (l : List (ℕ × Flt)) : (sortEntries l).Perm l := by
  suffices h : ∀ acc : List (ℕ × Flt),
      (l.foldl (fun acc x => insertEntry x acc) acc).Perm (acc ++ l) by
    simpa [sortEntries] using h []
  induction l with
  | nil => intro acc; simp
  | cons x xs ih =>
    intro acc
    rw [List.foldl_cons]
    refine (ih (insertEntry x acc)).trans ?_
    refine (List.Perm.append_right xs (insertEntry_perm x acc)).trans ?_
    have h1 : x :: acc ++ xs = x :: (acc ++ xs) := rfl
    rw [h1]
    exact (@List.perm_middle _ x acc xs).symm

theorem qle_of_qlt {a b : Flt} (h : qlt a b) : qle a b := le_of_lt h

theorem qle_of_not_qlt {a b : Flt} (h : ¬ qlt a b) : qle b a := not_lt.1 h

theorem qle_trans {a b c : Flt} (h1 : qle a b) (h2 : qle b c) : qle a c := by
  have hb : (0 : ℤ) < ((b.den : ℕ) : ℤ) := by exact_mod_cast b.den.2
  have ha : (0 : ℤ) < ((a.den : ℕ) : ℤ) := by exact_mod_cast a.den.2
  have hc : (0 : ℤ) < ((c.den : ℕ) : ℤ) := by exact_mod_cast c.den.2
  rw [qle] at h1 h2 ⊢
  have h3 : a.num * ((c.den : ℕ) : ℤ) * ((b.den : ℕ) : ℤ) ≤
      c.num * ((a.den : ℕ) : ℤ) * ((b.den : ℕ) : ℤ) := by
    nlinarith [mul_le_mul_of_nonneg_right h1 (le_of_lt hc),
      mul_le_mul_of_nonneg_right h2 (le_of_lt ha)]
  exact le_of_mul_le_mul_right h3 hb

theorem insertEntry_sorted (x : ℕ × Flt) (l : List (ℕ × Flt))
    (h : SortedByDist l) : SortedByDist (insertEntry x l) := by
  induction l with
  | nil => simp [insertEntry, SortedByDist]
  | cons y ys ih =>
    rw [insertEntry]
    split
    next hlt =>
      rw [SortedByDist, List.pairwise_cons]
      refine ⟨?_, h⟩
      intro a ha
      rcases List.mem_cons.1 ha with rfl | ha
      · exact qle_of_qlt hlt
      · exact qle_trans (qle_of_qlt hlt) (List.rel_of_pairwise_cons h ha)
    next hge =>
      rw [SortedByDist, List.pairwise_cons]
      constructor
      · intro a ha
        rcases (insertEntry_perm x ys).mem_iff.1 ha with h2
        rcases List.mem_cons.1 h2 with rfl | h2
        · exact qle_of_not_qlt hge
        · exact List.rel_of_pairwise_cons h h2
      · exact ih h.of_cons

theorem sortEntries_sorted (l : List (ℕ × Flt)) : SortedByDist (sortEntries l) := by
  suffices h : ∀ acc : List (ℕ × Flt), SortedByDist acc →
      SortedByDist (l.foldl (fun acc x => insertEntry x acc) acc) by
    exact h [] (by simp [SortedByDist])
  induction l with
  | nil => intro acc hacc; exact hacc
  | cons x xs ih =>
    intro acc hacc
    rw [List.foldl_cons]
    exact ih (insertEntry x acc) (insertEntry_sorted x acc hacc)

theorem alookup_map_value {β γ : Type} (k : ℕ) (f : β → γ)
    (m : List (ℕ × β)) :
    alookup k (m.map (fun kv => (kv.1, f kv.2))) = (alookup k m).map f := by
  induction m with
  | nil => simp [alookup]
  | cons kv rest ih =>
    by_cases hk : kv.1 = k
    · simp [alookup, hk]
    · simp [alookup, hk, ih]

theorem ogGet_sortOgMap (m : List (ℕ × List (ℕ × Flt))) (k : ℕ) :
    ogGet (sortOgMap m) k = sortEntries (ogGet m k) := by
  rw [sortOgMap, ogGet, ogGet, alookup_map_value]
  cases alookup k m with
  | none => simp [sortEntries]
  | some l => simp

/-! ### Claim C1: acyclicity invariant of the greedy run -/

/-- Claim C1: for every input state and every greedy run (any threshold,
candidate set, fraction and outgroup bound), the augmented graph holds no
directed cycle after the run; every prefix of the run also leaves it without
a directed cycle; and a step whose tentative outgroup edge would create a
cycle leaves both the graph and the outgroup map exactly as they were (the
edge is added and removed again, never recorded). -/
theorem greedy_acyclicity_invariant (st : OGState) (pr : GreedyParams)
    (st' : OGState)
    (hs : isAcyclicB st.dag = true)
    (hrun : greedyRun st pr = .ok st') :
    NoCycle st'.dag ∧
    (∀ l₁ l₂ s, orderedPairs st = l₁ ++ l₂ →
      runSteps st.tree st.dmDirected pr (initGState st pr) l₁ = .ok s →
      NoCycle s.dag) ∧
    (∀ (s : GState) (p : Flt × ℕ × ℕ) (s2 : GState),
      isAcyclicB s.dag = true →
      ¬ NoCycle (addEdge s.dag p.2.1 p.2.2) →
      greedyStep st.tree st.dmDirected pr s p = .ok s2 →
      s2.dag = s.dag ∧ s2.ogMap = s.ogMap) := by
  have hfoldinv : ∀ l s s', isAcyclicB s.dag = true →
      runSteps st.tree st.dmDirected pr s l = .ok s' →
      isAcyclicB s'.dag = true := by
    intro l s s' h1 h2
    exact runSteps_inv st.tree st.dmDirected pr (fun _ => True)
      (fun s => isAcyclicB s.dag = true)
      (fun s p s' _ hM hg => greedyStep_acyclic _ _ _ _ _ _ hM hg)
      l s s' (fun _ _ => trivial) h1 h2
  refine ⟨?_, ?_, ?_⟩
  · rw [greedyRun] at hrun
    cases hfold : runSteps st.tree st.dmDirected pr (initGState st pr)
        (orderedPairs st) with
    | error e =>
      rw [hfold] at hrun
      exact absurd hrun (by simp)
    | ok s =>
      rw [hfold] at hrun
      injection hrun with hrun
      subst hrun
      have h2 := hfoldinv _ _ _ (by simpa [initGState] using hs) hfold
      exact (isAcyclicB_iff _).1 h2
  · intro l₁ l₂ s _ hfold
    have h2 := hfoldinv _ _ _ (by simpa [initGState] using hs) hfold
    exact (isAcyclicB_iff _).1 h2
  · intro s p s2 h1 h2 hg
    have h3 : isAcyclicB (addEdge s.dag p.2.1 p.2.2) = false := by
      cases hb : isAcyclicB (addEdge s.dag p.2.1 p.2.2) with
      | false => rfl
      | true => exact absurd ((isAcyclicB_iff _).1 hb) h2
    exact greedyStep_reject _ _ _ _ _ _ h1 h3 hg

/-- Witness for C1: the hypotheses hold on the caterpillar tree with default
parameters, and the theorem yields the absence of cycles in the result. -/
theorem greedy_acyclicity_invariant_witness :
    isAcyclicB exStC1.dag = true ∧
    greedyRun exStC1 exParamsC1 = .ok exResC1 ∧
    NoCycle exResC1.dag := by
  refine ⟨by decide, by exact rfl, ?_⟩
  exact (greedy_acyclicity_invariant exStC1 exParamsC1 exResC1 (by decide)
    (by exact rfl)).1

/-! ### Claim C9: a node is never its own outgroup -/

theorem alookup_aset_isSome {β : Type} (l : List (ℕ × β)) (k k' : ℕ) (v : β)
    (h : (alookup k' l).isSome = true) :
    (alookup k' (aset l k v)).isSome = true := by
  by_cases hk : k' = k
  · subst hk
    rw [alookup_aset_self]
    rfl
  · rw [alookup_aset_ne _ _ _ _ hk]
    exact h

theorem alookup_relaxOnce_isSome (adj : List WEdge) (d : List (ℕ × Flt))
    (k : ℕ) (h : (alookup k d).isSome = true) :
    (alookup k (relaxOnce adj d)).isSome = true := by
  rw [relaxOnce]
  induction adj generalizing d with
  | nil => exact h
  | cons e rest ih =>
    rw [List.foldl_cons]
    apply ih
    cases alookup e.1 d with
    | none => exact h
    | some du =>
      simp only
      cases alookup e.2.1 d with
      | none => exact alookup_aset_isSome _ _ _ _ h
      | some dv =>
        simp only
        split
        · exact alookup_aset_isSome _ _ _ _ h
        · exact h

theorem alookup_relaxIter_isSome (adj : List WEdge) (k : ℕ) :
    ∀ (n : ℕ) (d : List (ℕ × Flt)), (alookup k d).isSome = true →
      (alookup k ((relaxOnce adj)^[n] d)).isSome = true := by
  intro n
  induction n with
  | zero => intro d h; exact h
  | succ m ih =>
    intro d h
    rw [Function.iterate_succ_apply]
    exact ih _ (alookup_relaxOnce_isSome adj d k h)

theorem alookup_distFrom_isSome (adj : List WEdge) (ns : List ℕ) (s : ℕ)
    (hs : s ∈ ns) : (alookup s (distFrom adj ns s)).isSome = true := by
  have hd : (alookup s
      ((relaxOnce adj)^[ns.length + 1] [(s, (0 : Flt))])).isSome = true := by
    apply alookup_relaxIter_isSome
    simp [alookup]
  simp only [distFrom]
  generalize hdd : (relaxOnce adj)^[ns.length + 1] [(s, (0 : Flt))] = d at hd
  clear hdd
  induction ns with
  | nil => simp at hs
  | cons n rest ih =>
    cases hn : alookup n d with
    | none =>
      rw [List.filterMap_cons_none (by rw [hn]; rfl)]
      rcases List.mem_cons.1 hs with rfl | hs2
      · rw [hn] at hd
        simp at hd
      · exact ih hs2
    | some q =>
      rw [List.filterMap_cons_some (by rw [hn]; rfl)]
      rw [alookup]
      by_cases hns : n = s
      · rw [if_pos hns]
        rfl
      · rw [if_neg hns]
        rcases List.mem_cons.1 hs with rfl | hs2
        · exact absurd rfl hns
        · exact ih hs2

theorem alookup_map_pair {α : Type} (f : ℕ → α) (l : List ℕ) (k : ℕ)
    (hk : k ∈ l) :
    alookup k (l.map (fun x => (x, f x))) = some (f k) := by
  induction l with
  | nil => simp at hk
  | cons n rest ih =>
    rw [List.map_cons, alookup]
    by_cases hn : n = k
    · subst hn
      simp
    · rw [if_neg hn]
      rcases List.mem_cons.1 hk with rfl | hk2
      · exact absurd rfl hn
      · exact ih hk2

theorem onSamePath_self_of_mem (adj : List WEdge) (ns : List ℕ) (s : ℕ)
    (hs : s ∈ ns) : onSamePath (distTable adj ns) s s = true := by
  rw [onSamePath, distTable, alookup_map_pair (fun x => distFrom adj ns x) ns s hs]
  simp only
  rw [alookup_distFrom_isSome adj ns s hs]
  simp

theorem rawPairs_source_mem_dm (st : OGState) (p : Flt × ℕ × ℕ)
    (hp : p ∈ rawPairs st) : p.2.1 ∈ st.dm.map Prod.fst := by
  rcases List.mem_flatMap.1 hp with ⟨row, hrow, hpr⟩
  rcases List.mem_filterMap.1 hpr with ⟨sd, _, hif⟩
  split at hif
  · injection hif with hif
    subst hif
    exact List.mem_map.2 ⟨row, hrow, rfl⟩
  · cases hif

/-- Claim C9: for any run of the greedy assigner on an imported tree with
injective node names, the resulting outgroup list of a name never contains
that name itself (self pairs are rejected because the directed distance
table lists every node at distance 0 from itself, so `onSamePath` is true
for `(x, x)`). -/
theorem greedy_no_self_outgroup (t : MCTree) (pr : GreedyParams)
    (st st' : OGState)
    (hinj : ∀ a b, getName t a = getName t b → a = b)
    (him : importTreeG t = .ok st)
    (hrun : greedyRun st pr = .ok st') :
    ∀ n d, (n, d) ∉ ogGet st'.ogMap n := by
  rw [importTreeG] at him
  cases hstrip : stripNonEvents (t.nodes.length + 1) t.edges t.root
      t.subtreeRoots with
  | error e =>
    rw [hstrip] at him
    exact absurd him (by simp)
  | ok dag2 =>
    rw [hstrip] at him
    injection him with him
    subst him
    rw [greedyRun] at hrun
    set st0 : OGState :=
      { dag := (dag2.map (fun e => (e.1, e.2.1))).dedup
        dm := distTable (dag2 ++ dag2.map (fun e => (e.2.1, e.1, e.2.2)))
          t.nodes.dedup
        dmDirected := distTable dag2 t.nodes.dedup
        root := t.root
        ogMap := []
        tree := t } with hst0
    cases hfold : runSteps st0.tree st0.dmDirected pr (initGState st0 pr)
        (orderedPairs st0) with
    | error e =>
      rw [hfold] at hrun
      exact absurd hrun (by simp)
    | ok s =>
      rw [hfold] at hrun
      injection hrun with hrun
      subst hrun
      simp only
      -- the invariant: no entry of the map carries its own key
      have hM : ∀ k n d, (n, d) ∈ ogGet s.ogMap k → n ≠ k := by
        refine runSteps_inv st0.tree st0.dmDirected pr
          (fun p => p.2.1 = p.2.2 →
            onSamePath st0.dmDirected p.2.1 p.2.2 = true)
          (fun s => ∀ k n d, (n, d) ∈ ogGet s.ogMap k → n ≠ k)
          ?_ (orderedPairs st0) (initGState st0 pr) s ?_ ?_ hfold
        · intro s1 p s2 hP hM hg
          rcases greedyStep_cases _ _ _ _ _ _ hg with
            ⟨hm, _⟩ | ⟨hm, _, _, hpath, _, _⟩
          · rw [hm]
            exact hM
          · rw [hm]
            intro k n d hmem
            by_cases hk : k = getName st0.tree p.2.1
            · subst hk
              rw [ogGet_ogAppend_self] at hmem
              rcases List.mem_append.1 hmem with h2 | h2
              · exact hM _ _ _ h2
              · simp only [List.mem_singleton] at h2
                injection h2 with h21 h22
                subst h21
                intro heq
                have hxy := hinj _ _ heq
                rw [hxy] at hpath
                have hsp := hP hxy.symm
                · rw [hxy] at hsp
                  rw [hsp] at hpath
                  cases hpath
            · rw [ogGet_ogAppend_ne _ _ _ _ hk] at hmem
              exact hM _ _ _ hmem
        · intro p hp heq
          have hraw := (mem_orderedPairs_iff st0 p).1 hp
          have hsrc := rawPairs_source_mem_dm st0 p hraw
          have hsrc2 : p.2.1 ∈ t.nodes.dedup := by
            have : st0.dm.map Prod.fst = t.nodes.dedup := by
              rw [hst0]
              simp [distTable, List.map_map, Function.comp_def]
            rwa [this] at hsrc
          rw [← heq]
          exact onSamePath_self_of_mem dag2 t.nodes.dedup p.2.1 hsrc2
        · intro k n d hmem
          rw [hst0] at hmem
          simp [ogGet, alookup] at hmem
      intro n d hmem
      rw [ogGet_sortOgMap] at hmem
      have h2 := (sortEntries_perm (ogGet s.ogMap n)).mem_iff.1 hmem
      exact hM n n d h2 rfl

/-- Witness for C9: the hypotheses hold on the caterpillar tree, and the run
indeed assigns no name to itself. -/
theorem greedy_no_self_outgroup_witness :
    (∀ a b, getName exTreeC9 a = getName exTreeC9 b → a = b) ∧
    importTreeG exTreeC9 = .ok exStC9 ∧
    greedyRun exStC9 exParamsC9 = .ok exResC9 ∧
    (∀ n d, (n, d) ∉ ogGet exResC9.ogMap n) := by
  have hinj : ∀ a b, getName exTreeC9 a = getName exTreeC9 b → a = b := by
    intro a b h
    simpa [getName, exTreeC9, alookup] using h
  refine ⟨hinj, by exact rfl, by exact rfl, ?_⟩
  exact greedy_no_self_outgroup exTreeC9 exParamsC9 exStC9 exResC9 hinj
    (by exact rfl) (by exact rfl)

/-! ### Claim C10: `compute` discards the previous outgroup map -/

/-- Claim C10: `DynamicOutgroup.compute` replaces the outgroup map with a
fresh empty dict (source line 265) before selecting any outgroups, so its
result is entirely independent of the assignments present before the call -
the DP path always overwrites the map. -/
theorem compute_overwrites_ogMap (t : MCTree) (seqInfo : List (ℕ × ℕ × ℕ))
    (numOG : ℕ) (expFn : Flt → Flt) (m1 m2 : List (ℕ × List ℕ))
    (dag0 : List Edge) :
    computeDyn t seqInfo numOG expFn m1 dag0 =
    computeDyn t seqInfo numOG expFn m2 dag0 := rfl

/-! ### Claims C2 and C3: the degenerate DP scores -/

/-- Claim C2 (evaluation of the code at the failing input): on the re-rooted
working tree with root 0 and a single leaf child 1, branch conservation 1/2
and `numOG = 1`, the code stores score 1 at budget 1 - `lossProb` is
initialised to `0.` at source line 327, so the "product of complements" is
constantly zero and `consProb` is always 1 - while the formula the claim
states (the specified maximum over splits) yields 1/2. -/
theorem dp_node_score_code_vs_spec :
    qeq ((dpRowOf (dpRunF (fun _ => ⟨1, 2⟩) 1 3
        (.node 0 [.node 1 []])) 0).getD 1 ⟨0, []⟩).score 1 ∧
    qeq (specNodeScore (fun _ => ⟨1, 2⟩) 1
        [(1, dpRowOf (dpRunF (fun _ => ⟨1, 2⟩) 1 3
          (.node 0 [.node 1 []])) 1)] 1) ⟨1, 2⟩ ∧
    ¬ qeq (1 : Flt) ⟨1, 2⟩ := by decide

/-- Claim C3 (evaluation of the code at the failing input): after the DP run
on the same tiny working tree, the internal node's budget-0 entry has score
1 rather than the claimed 0 (the all-zero split already stores
`consProb = 1 - 0 = 1`); the leaf rows do satisfy the claimed values
(score 0 at budget 0 and score 1 at budget 1). -/
theorem dp_budget_zero_score_eval :
    qeq ((dpRowOf (dpRunF (fun _ => ⟨1, 2⟩) 1 3
        (.node 0 [.node 1 []])) 0).getD 0 ⟨1, []⟩).score 1 ∧
    qeq ((dpRowOf (dpRunF (fun _ => ⟨1, 2⟩) 1 3
        (.node 0 [.node 1 []])) 1).getD 0 ⟨1, []⟩).score 0 ∧
    qeq ((dpRowOf (dpRunF (fun _ => ⟨1, 2⟩) 1 3
        (.node 0 [.node 1 []])) 1).getD 1 ⟨0, []⟩).score 1 ∧
    ¬ qeq (1 : Flt) 0 := by decide

/-! ### Claim C6: per-leaf sequence statistics count only the last file -/

/-- Claim C6 (evaluation of the code at the failing input): a leaf whose
directory holds two sequence files, one record of length 5 and one of
length 3, receives sequence info `(1, 3)` - the `count, totalLen` counters
are reset inside the per-file loop (source line 241), so only the last file
survives - not the claimed totals `(2, 8)`; the same last-file statistics
are then propagated to the parent. -/
theorem seqinfo_counts_last_file_only :
    scanFastaFiles [[5], [3]] = (1, 3) ∧
    alookup 1 (importSeqInfo (fun x => if x = 1 then some 0 else none) 5
      [(1, [[5], [3]])]) = some (1, 3) ∧
    alookup 0 (importSeqInfo (fun x => if x = 1 then some 0 else none) 5
      [(1, [[5], [3]])]) = some (1, 3) ∧
    (1, 3) ≠ (2, 8) := by decide

/-! ### Claim C7: stripNonEvents never strips -/

/-- Claim C7 (evaluation of the code at the failing input): on the chain
root 0 → 1 → 2 with subtree roots `{0}`, node 1 is exactly the kind of node
the claim says is removed (not a subtree root, has a child), yet
`stripNonEvents` returns normally with the dag unchanged: the recursion
descends only after a removal, and stripping any parented node would first
raise `TypeError` at `self.dag.in_edges[0][0]` (source line 60). -/
theorem strip_non_events_removes_nothing :
    stripNonEvents 4 [(0, 1, 1), (1, 2, 1)] 0 [0] =
      .ok [(0, 1, 1), (1, 2, 1)] ∧
    (1 ∉ [0] ∧ 1 ≤ (outEdgesW [(0, 1, 1), (1, 2, 1)] 1).length) :=
  ⟨by exact rfl, by decide⟩

/-! ### Claim C8: importTree performs no topology validation -/

/-- Claim C8 counterexample: node 3 of `exTreeC8` has two parents (and the
graph is not a tree), yet `importTree` succeeds - it raises no
`InvalidTreeError` (no such error exists anywhere in the code). -/
theorem import_tree_accepts_multi_parent :
    (importTreeG exTreeC8).isOk = true ∧
    (inEdgesW exTreeC8.edges 3).length = 2 := by decide

/-- Claim C8 amended: `importTree` performs no connectivity or
multiple-parent validation.  Whenever the root has no incoming edge and is a
subtree root (or is childless), it succeeds on any input graph -
disconnected and multi-parent graphs included - and produces the two
distance tables. -/
theorem import_tree_no_validation (t : MCTree)
    (hroot : (inEdgesW t.edges t.root).length = 0)
    (hsub : t.root ∈ t.subtreeRoots ∨ outEdgesW t.edges t.root = []) :
    importTreeG t = .ok
      { dag := (t.edges.map (fun e => (e.1, e.2.1))).dedup
        dm := distTable (t.edges ++ t.edges.map (fun e => (e.2.1, e.1, e.2.2)))
          t.nodes.dedup
        dmDirected := distTable t.edges t.nodes.dedup
        root := t.root
        ogMap := []
        tree := t } := by
  have hstrip : stripNonEvents (t.nodes.length + 1) t.edges t.root
      t.subtreeRoots = .ok t.edges := by
    rw [stripNonEvents]
    rw [hroot]
    simp only [Nat.lt_irrefl, if_false]
    norm_num
    rcases hsub with h | h
    · intro h2
      exact absurd h h2
    · intro _ h3
      exact absurd h h3
  rw [importTreeG, hstrip]

/-- Witness for the amended C8: the hypotheses hold on the multi-parent
graph `exTreeC8`, whose import succeeds with the two distance tables. -/
theorem import_tree_no_validation_witness :
    (inEdgesW exTreeC8.edges exTreeC8.root).length = 0 ∧
    (exTreeC8.root ∈ exTreeC8.subtreeRoots ∨
      outEdgesW exTreeC8.edges exTreeC8.root = []) ∧
    importTreeG exTreeC8 = .ok
      { dag := (exTreeC8.edges.map (fun e => (e.1, e.2.1))).dedup
        dm := distTable (exTreeC8.edges ++
          exTreeC8.edges.map (fun e => (e.2.1, e.1, e.2.2)))
          exTreeC8.nodes.dedup
        dmDirected := distTable exTreeC8.edges exTreeC8.nodes.dedup
        root := exTreeC8.root
        ogMap := []
        tree := exTreeC8 } :=
  ⟨by decide, by decide,
    import_tree_no_validation exTreeC8 (by decide) (by decide)⟩

/-! ### Claim C5: threshold monotonicity fails -/

/-- Claim C5 counterexample: on the fixed tree `exTreeC5` with
`maxNumOutgroups = 2`, no candidate restriction and otherwise identical
parameters, the smaller threshold 1 produces 5 total outgroup assignments
while the larger threshold 2 produces only 4. -/
theorem threshold_monotonicity_counterexample :
    importTreeG exTreeC5 = .ok exStC5 ∧
    greedyRun exStC5 exParamsC5a = .ok exResC5a ∧
    greedyRun exStC5 exParamsC5b = .ok exResC5b ∧
    exParamsC5a.threshold = some 1 ∧ exParamsC5b.threshold = some 2 ∧
    exParamsC5a = { exParamsC5b with threshold := some 1 } ∧
    totalAssignments exResC5a.ogMap = 5 ∧
    totalAssignments exResC5b.ogMap = 4 := by
  refine ⟨by exact rfl, by exact rfl, by exact rfl, rfl, rfl, by decide,
    by decide, by decide⟩

/-- Claim C5 amended: the threshold test of source lines 174–175 itself is
monotone - against the same height table, a pair that passes with a smaller
threshold passes with any larger threshold and with no threshold at all -
but the end-to-end assignment totals are not monotone in the threshold, as
the counterexample shows. -/
theorem threshold_check_monotone (ht : List (ℕ × ℕ)) (sink source : ℕ)
    (t1 t2 : ℤ) (h12 : t1 ≤ t2)
    (hpass : thresholdRejects (some t1) ht sink source = false) :
    thresholdRejects (some t2) ht sink source = false ∧
    thresholdRejects none ht sink source = false := by
  constructor
  · simp only [thresholdRejects, decide_eq_false_iff_not, not_lt] at hpass ⊢
    omega
  · rfl

/-- Witness for the amended C5. -/
theorem threshold_check_monotone_witness :
    ((1 : ℤ) ≤ 2 ∧
      thresholdRejects (some 1) [(0, 0), (1, 0)] 0 1 = false) ∧
    thresholdRejects (some 2) [(0, 0), (1, 0)] 0 1 = false ∧
    thresholdRejects none [(0, 0), (1, 0)] 0 1 = false :=
  ⟨⟨by decide, by decide⟩,
    threshold_check_monotone [(0, 0), (1, 0)] 0 1 1 2 (by decide) (by decide)⟩

/-! ### Claim C4: re-running the greedy assigner extends the map -/

theorem qeq_refl (a : Flt) : qeq a a := rfl

theorem ogGet_eq_nil_of_not_hasKey (m : List (ℕ × List (ℕ × Flt))) (k : ℕ)
    (h : ¬ ogHasKey m k = true) : ogGet m k = [] := by
  rw [ogHasKey] at h
  rw [ogGet]
  cases halk : alookup k m with
  | none => rfl
  | some l =>
    rw [halk] at h
    simp at h

theorem mem_map_self_pair {α : Type} {f : ℕ → α} {l : List ℕ} {a : ℕ} {b : α}
    (h : (a, b) ∈ l.map (fun x => (x, f x))) : b = f a := by
  rcases List.mem_map.1 h with ⟨x, _, heq⟩
  injection heq with h1 h2
  subst h1
  exact h2.symm

theorem mem_distFrom_eq (adj : List WEdge) (ns : List ℕ) (s x : ℕ) (d : Flt)
    (h : (x, d) ∈ distFrom adj ns s) :
    alookup x ((relaxOnce adj)^[ns.length + 1] [(s, (0 : Flt))]) = some d := by
  simp only [distFrom] at h
  rcases List.mem_filterMap.1 h with ⟨n, _, hmap⟩
  cases ha : alookup n ((relaxOnce adj)^[ns.length + 1] [(s, (0 : Flt))]) with
  | none =>
    rw [ha] at hmap
    simp at hmap
  | some q =>
    rw [ha] at hmap
    simp only [Option.map_some'] at hmap
    rw [Option.some.injEq, Prod.mk.injEq] at hmap
    rw [← hmap.1, ← hmap.2]
    exact ha

theorem rawPairs_char (st : OGState) (ns : List ℕ) (adjU : List WEdge)
    (hdm : st.dm = distTable adjU ns) (d : Flt) (s x : ℕ)
    (h : (d, s, x) ∈ rawPairs st) :
    alookup x ((relaxOnce adjU)^[ns.length + 1] [(s, (0 : Flt))]) = some d := by
  rcases List.mem_flatMap.1 h with ⟨row, hrow, hpr⟩
  rcases List.mem_filterMap.1 hpr with ⟨sd, hsd, hif⟩
  split at hif
  · injection hif with hif
    injection hif with h1 h2
    injection h2 with h2 h3
    rw [hdm, distTable] at hrow
    have hrow2 : row.2 = distFrom adjU ns row.1 := by
      apply mem_map_self_pair (l := ns) (f := fun z => distFrom adjU ns z)
      have heta : (row.1, row.2) = row := Prod.mk.eta
      rw [heta]
      exact hrow
    have hx : (x, d) ∈ distFrom adjU ns s := by
      rw [← h3, ← h1, ← h2, ← hrow2]
      have heta : (sd.1, sd.2) = sd := Prod.mk.eta
      rw [heta]
      exact hsd
    exact mem_distFrom_eq adjU ns s x d hx
  · cases hif

theorem rawPairs_unique (st : OGState) (ns : List ℕ) (adjU : List WEdge)
    (hdm : st.dm = distTable adjU ns) (d1 d2 : Flt) (s x : ℕ)
    (h1 : (d1, s, x) ∈ rawPairs st) (h2 : (d2, s, x) ∈ rawPairs st) :
    d1 = d2 := by
  have e1 := rawPairs_char st ns adjU hdm d1 s x h1
  have e2 := rawPairs_char st ns adjU hdm d2 s x h2
  rw [e1] at e2
  exact Option.some.inj e2

/-- The recorded-distance invariant: every entry of the outgroup map carries
exactly the distance of the (unique) candidate pair with the matching
names. -/
def DistInv (t : MCTree) (pairs0 : List (Flt × ℕ × ℕ))
    (m : List (ℕ × List (ℕ × Flt))) : Prop :=
  ∀ k n dd, (n, dd) ∈ ogGet m k →
    ∀ d a b, (d, a, b) ∈ pairs0 → getName t a = k → getName t b = n → dd = d

theorem greedyStep_extends (t : MCTree) (dmD : List (ℕ × List (ℕ × Flt)))
    (pr : GreedyParams) (s : GState) (p : Flt × ℕ × ℕ) (s' : GState)
    (h : greedyStep t dmD pr s p = .ok s') :
    ∀ k, ∃ suf, ogGet s'.ogMap k = ogGet s.ogMap k ++ suf := by
  rcases greedyStep_cases t dmD pr s p s' h with ⟨hm, _⟩ | ⟨hm, _⟩
  · rw [hm]
    exact fun k => ⟨[], (List.append_nil _).symm⟩
  · rw [hm]
    intro k
    by_cases hk : k = getName t p.2.1
    · subst hk
      rw [ogGet_ogAppend_self]
      exact ⟨[(getName t p.2.2, p.1)], rfl⟩
    · rw [ogGet_ogAppend_ne _ _ _ _ hk]
      exact ⟨[], (List.append_nil _).symm⟩

theorem greedyStep_bound (t : MCTree) (dmD : List (ℕ × List (ℕ × Flt)))
    (pr : GreedyParams) (s : GState) (p : Flt × ℕ × ℕ) (s' : GState)
    (hmax : 1 ≤ pr.maxNumOutgroups)
    (hB : ∀ k, (ogGet s.ogMap k).length ≤ pr.maxNumOutgroups)
    (h : greedyStep t dmD pr s p = .ok s') :
    ∀ k, (ogGet s'.ogMap k).length ≤ pr.maxNumOutgroups := by
  rcases greedyStep_cases t dmD pr s p s' h with ⟨hm, _⟩ | ⟨hm, _, _, _, _, hguard⟩
  · rw [hm]
    exact hB
  · rw [hm]
    intro k
    by_cases hk : k = getName t p.2.1
    · subst hk
      rw [ogGet_ogAppend_self, List.length_append]
      by_cases hkey : ogHasKey s.ogMap (getName t p.2.1) = true
      · have hlt : ¬ pr.maxNumOutgroups ≤
            (ogGet s.ogMap (getName t p.2.1)).length :=
          fun hle => hguard ⟨hkey, hle⟩
        simp only [List.length_singleton]
        omega
      · rw [ogGet_eq_nil_of_not_hasKey _ _ hkey]
        simpa using hmax
    · rw [ogGet_ogAppend_ne _ _ _ _ hk]
      exact hB k

theorem greedyStep_distinv (t : MCTree) (dmD : List (ℕ × List (ℕ × Flt)))
    (pr : GreedyParams) (pairs0 : List (Flt × ℕ × ℕ))
    (hinj : ∀ a b, getName t a = getName t b → a = b)
    (huniq : ∀ d1 d2 a b, (d1, a, b) ∈ pairs0 → (d2, a, b) ∈ pairs0 → d1 = d2)
    (s : GState) (p : Flt × ℕ × ℕ) (s' : GState) (hp : p ∈ pairs0)
    (hI : DistInv t pairs0 s.ogMap)
    (h : greedyStep t dmD pr s p = .ok s') : DistInv t pairs0 s'.ogMap := by
  rcases greedyStep_cases t dmD pr s p s' h with ⟨hm, _⟩ | ⟨hm, _⟩
  · rw [DistInv, hm]
    exact hI
  · rw [DistInv, hm]
    intro k n dd hmem d a b hdab hka hkb
    by_cases hk : k = getName t p.2.1
    · subst hk
      rw [ogGet_ogAppend_self] at hmem
      rcases List.mem_append.1 hmem with h2 | h2
      · exact hI _ _ _ h2 d a b hdab hka hkb
      · simp only [List.mem_singleton] at h2
        injection h2 with h21 h22
        subst h22
        have ha : a = p.2.1 := hinj _ _ hka
        have hb : b = p.2.2 := hinj _ _ (hkb.trans h21)
        have hp2 : (p.1, p.2.1, p.2.2) ∈ pairs0 := by
          have heta : (p.1, p.2.1, p.2.2) = p := rfl
          rw [heta]
          exact hp
        rw [ha, hb] at hdab
        exact (huniq d p.1 p.2.1 p.2.2 hdab hp2).symm
    · rw [ogGet_ogAppend_ne _ _ _ _ hk] at hmem
      exact hI _ _ _ hmem d a b hdab hka hkb

theorem greedyStep_no_assert (t : MCTree) (dmD : List (ℕ × List (ℕ × Flt)))
    (pr : GreedyParams) (pairs0 : List (Flt × ℕ × ℕ))
    (s : GState) (p : Flt × ℕ × ℕ) (hp : p ∈ pairs0)
    (hI : DistInv t pairs0 s.ogMap) :
    ∃ s', greedyStep t dmD pr s p = .ok s' := by
  cases hg : greedyStep t dmD pr s p with
  | ok s' => exact ⟨s', rfl⟩
  | error er =>
    obtain ⟨hmem, hne⟩ := greedyStep_error_cases t dmD pr s p er hg
    obtain ⟨v, hv⟩ := alookupLast_isSome_of_mem_fst hmem
    have hventry := alookupLast_mem hv
    have hvd : v = p.1 := by
      refine hI _ _ _ hventry p.1 p.2.1 p.2.2 ?_ rfl rfl
      have heta : (p.1, p.2.1, p.2.2) = p := rfl
      rw [heta]
      exact hp
    exact absurd (by rw [hvd]; exact qeq_refl p.1) (hne v hv)

theorem DistInv_sortOgMap (t : MCTree) (pairs0 : List (Flt × ℕ × ℕ))
    (m : List (ℕ × List (ℕ × Flt))) (h : DistInv t pairs0 m) :
    DistInv t pairs0 (sortOgMap m) := by
  intro k n dd hmem
  rw [ogGet_sortOgMap] at hmem
  exact h k n dd ((sortEntries_perm _).mem_iff.1 hmem)

/-- Claim C4 (amended): re-running the greedy assigner on the map produced
by a previous run, with the same tree and the same parameters, always
completes (the distance-consistency assert never fires), and never removes
or changes an existing `(outgroupName, distance)` entry: every source's
resulting list is a permutation of its previous list plus possibly some
appended new entries, re-sorted ascending by distance.  When
`maxNumOutgroups ≥ 1` every list moreover stays within `maxNumOutgroups`
(for `maxNumOutgroups = 0` the bound already fails after the first run, see
the counterexample). -/
theorem greedy_rerun_extends (t : MCTree) (pr : GreedyParams)
    (st st1 : OGState)
    (hinj : ∀ a b, getName t a = getName t b → a = b)
    (him : importTreeG t = .ok st)
    (hrun1 : greedyRun st pr = .ok st1) :
    ∃ st2, greedyRun st1 pr = .ok st2 ∧
      (∀ k, ∃ newEntries,
        (ogGet st2.ogMap k).Perm (ogGet st1.ogMap k ++ newEntries) ∧
        SortedByDist (ogGet st2.ogMap k)) ∧
      (1 ≤ pr.maxNumOutgroups →
        ∀ k, (ogGet st2.ogMap k).length ≤ pr.maxNumOutgroups) := by
  rw [importTreeG] at him
  cases hstrip : stripNonEvents (t.nodes.length + 1) t.edges t.root
      t.subtreeRoots with
  | error e =>
    rw [hstrip] at him
    exact absurd him (by simp)
  | ok dag2 =>
    rw [hstrip] at him
    injection him with him
    subst him
    set st0 : OGState :=
      { dag := (dag2.map (fun e => (e.1, e.2.1))).dedup
        dm := distTable (dag2 ++ dag2.map (fun e => (e.2.1, e.1, e.2.2)))
          t.nodes.dedup
        dmDirected := distTable dag2 t.nodes.dedup
        root := t.root
        ogMap := []
        tree := t } with hst0
    have huniq : ∀ d1 d2 a b, (d1, a, b) ∈ orderedPairs st0 →
        (d2, a, b) ∈ orderedPairs st0 → d1 = d2 := by
      intro d1 d2 a b h1 h2
      exact rawPairs_unique st0 t.nodes.dedup
        (dag2 ++ dag2.map (fun e => (e.2.1, e.1, e.2.2))) rfl d1 d2 a b
        ((mem_orderedPairs_iff st0 _).1 h1) ((mem_orderedPairs_iff st0 _).1 h2)
    rw [greedyRun] at hrun1
    cases hfold1 : runSteps st0.tree st0.dmDirected pr (initGState st0 pr)
        (orderedPairs st0) with
    | error e =>
      rw [hfold1] at hrun1
      exact absurd hrun1 (by simp)
    | ok s1 =>
      rw [hfold1] at hrun1
      injection hrun1 with hrun1
      subst hrun1
      have hI1 : DistInv t (orderedPairs st0) s1.ogMap := by
        refine runSteps_inv st0.tree st0.dmDirected pr
          (fun p => p ∈ orderedPairs st0)
          (fun s => DistInv t (orderedPairs st0) s.ogMap)
          ?_ (orderedPairs st0) (initGState st0 pr) s1
          (fun _ hp => hp) ?_ hfold1
        · intro s p s2 hp hM hg
          exact greedyStep_distinv t st0.dmDirected pr (orderedPairs st0)
            hinj huniq s p s2 hp hM hg
        · intro k n dd hmem
          simp [hst0, initGState, ogGet, alookup] at hmem
      have hIS : DistInv t (orderedPairs st0) (sortOgMap s1.ogMap) :=
        DistInv_sortOgMap t (orderedPairs st0) s1.ogMap hI1
      have hB1 : 1 ≤ pr.maxNumOutgroups →
          ∀ k, (ogGet s1.ogMap k).length ≤ pr.maxNumOutgroups := by
        intro hmax
        refine runSteps_inv st0.tree st0.dmDirected pr (fun _ => True)
          (fun s => ∀ k, (ogGet s.ogMap k).length ≤ pr.maxNumOutgroups)
          ?_ (orderedPairs st0) (initGState st0 pr) s1
          (fun _ _ => trivial) ?_ hfold1
        · intro s p s2 _ hM hg
          exact greedyStep_bound st0.tree st0.dmDirected pr s p s2 hmax hM hg
        · intro k
          simp [hst0, initGState, ogGet, alookup]
      set st1 : OGState :=
        { st0 with dag := s1.dag, ogMap := sortOgMap s1.ogMap } with hst1
      have hlen_sort : ∀ (m : List (ℕ × List (ℕ × Flt))) k,
          (ogGet (sortOgMap m) k).length = (ogGet m k).length := by
        intro m k
        rw [ogGet_sortOgMap]
        exact (sortEntries_perm _).length_eq
      have hstepPf : ∀ s p, p ∈ orderedPairs st0 →
          (DistInv t (orderedPairs st0) s.ogMap ∧
            (∀ k, ∃ suf, ogGet s.ogMap k = ogGet st1.ogMap k ++ suf) ∧
            (1 ≤ pr.maxNumOutgroups →
              ∀ k, (ogGet s.ogMap k).length ≤ pr.maxNumOutgroups)) →
          ∃ s', greedyStep st1.tree st1.dmDirected pr s p = .ok s' ∧
            (DistInv t (orderedPairs st0) s'.ogMap ∧
              (∀ k, ∃ suf, ogGet s'.ogMap k = ogGet st1.ogMap k ++ suf) ∧
              (1 ≤ pr.maxNumOutgroups →
                ∀ k, (ogGet s'.ogMap k).length ≤ pr.maxNumOutgroups)) := by
        intro s p hp hM
        obtain ⟨s', hok⟩ := greedyStep_no_assert st1.tree st1.dmDirected pr
          (orderedPairs st0) s p hp hM.1
        refine ⟨s', hok, ?_, ?_, ?_⟩
        · exact greedyStep_distinv t st1.dmDirected pr (orderedPairs st0)
            hinj huniq s p s' hp hM.1 hok
        · intro k
          obtain ⟨suf1, h1⟩ := hM.2.1 k
          obtain ⟨suf2, h2⟩ := greedyStep_extends st1.tree st1.dmDirected pr
            s p s' hok k
          exact ⟨suf1 ++ suf2, by rw [h2, h1, List.append_assoc]⟩
        · intro hmax
          exact greedyStep_bound st1.tree st1.dmDirected pr s p s' hmax
            (hM.2.2 hmax) hok
      have hinitPf : DistInv t (orderedPairs st0)
            (initGState st1 pr).ogMap ∧
          (∀ k, ∃ suf, ogGet (initGState st1 pr).ogMap k =
            ogGet st1.ogMap k ++ suf) ∧
          (1 ≤ pr.maxNumOutgroups →
            ∀ k, (ogGet (initGState st1 pr).ogMap k).length ≤
              pr.maxNumOutgroups) := by
        refine ⟨hIS, ?_, ?_⟩
        · intro k
          exact ⟨[], (List.append_nil _).symm⟩
        · intro hmax k
          rw [hst1]
          simp only [initGState]
          rw [hlen_sort]
          exact hB1 hmax k
      obtain ⟨s2, hfold2, hM2⟩ :=
        runSteps_total st1.tree st1.dmDirected pr
          (fun p => p ∈ orderedPairs st0)
          (fun s => DistInv t (orderedPairs st0) s.ogMap ∧
            (∀ k, ∃ suf, ogGet s.ogMap k = ogGet st1.ogMap k ++ suf) ∧
            (1 ≤ pr.maxNumOutgroups →
              ∀ k, (ogGet s.ogMap k).length ≤ pr.maxNumOutgroups))
          hstepPf (orderedPairs st1) (initGState st1 pr)
          (fun p hp => hp) hinitPf
      refine ⟨{ st1 with dag := s2.dag, ogMap := sortOgMap s2.ogMap },
        ?_, ?_, ?_⟩
      · rw [greedyRun, hfold2]
      · intro k
        obtain ⟨suf, hext⟩ := hM2.2.1 k
        refine ⟨suf, ?_, ?_⟩
        · simp only [ogGet_sortOgMap] at hext ⊢
          rw [hext]
          exact sortEntries_perm _
        · simp only [ogGet_sortOgMap]
          exact sortEntries_sorted _
      · intro hmax k
        simp only [ogGet_sortOgMap]
        rw [(sortEntries_perm (ogGet s2.ogMap k)).length_eq]
        exact hM2.2.2 hmax k

/-- Witness for C4 on the caterpillar tree with `maxNumOutgroups = 1`:
the second run succeeds and extends the first run's map within the bound. -/
theorem greedy_rerun_extends_witness :
    ∃ st2, greedyRun exRes1C4 exParamsC4 = .ok st2 ∧
      (∀ k, ∃ newEntries,
        (ogGet st2.ogMap k).Perm (ogGet exRes1C4.ogMap k ++ newEntries) ∧
        SortedByDist (ogGet st2.ogMap k)) ∧
      (1 ≤ exParamsC4.maxNumOutgroups →
        ∀ k, (ogGet st2.ogMap k).length ≤ exParamsC4.maxNumOutgroups) :=
  greedy_rerun_extends exTreeC4 exParamsC4 exStC4 exRes1C4
    (by intro a b h; simpa [getName, exTreeC4, alookup] using h)
    (by exact rfl) (by exact rfl)

/-- Counterexample to the literal C4 size-bound clause: with
`maxNumOutgroups = 0` a source still receives one outgroup entry (the
membership test `sourceName in ogMap` fails before the first append), so
after the re-run node 1's list holds one entry, exceeding the bound 0.
The preserved-entries part still holds: the entry `(4, 2)` survives the
second run unchanged. -/
theorem greedy_rerun_bound_counterexample :
    importTreeG exTreeC4 = .ok exStC4 ∧
    greedyRun exStC4 exParamsC4z = .ok exZ1C4 ∧
    greedyRun exZ1C4 exParamsC4z = .ok exZ2C4 ∧
    exParamsC4z.maxNumOutgroups = 0 ∧
    ogGet exZ1C4.ogMap 1 = [(4, ⟨2, 1⟩)] ∧
    ogGet exZ2C4.ogMap 1 = [(4, ⟨2, 1⟩)] ∧
    ¬((ogGet exZ2C4.ogMap 1).length ≤ exParamsC4z.maxNumOutgroups) :=
  ⟨by exact rfl, by exact rfl, by exact rfl, by exact rfl,
   by decide, by decide, by decide⟩
